import Mathlib

/-!
# rocksdb-server: the client session engine (`src/client.cc`)

A shallow embedding of the command parser, the input/output buffers, the
output encoder, the read loop and the session loop of `client.cc`, followed by
theorems about them.

Conventions of the embedding.

* A byte (`char`) is a `Nat`; the literals of the source are written as their
  ASCII codes (`'*'` = 42, `'$'` = 36, `'\r'` = 13, `'\n'` = 10, `' '` = 32,
  `'\''` = 39, `'"'` = 34, NUL = 0).
* Memory regions (`c->buf`, `c->output`) are `List Nat`; a read `p[i]` is
  `p.getD i 0` and a write `p[i] = v` is `p.set i v`.
* A pointer into `c->buf` is its offset from `c->buf`.
* The C type `error` (`const char *`, `NULL` on success) is `Option String`;
  the C string a `String` stands for is its bytes before the first NUL.
* The transport and the dispatch call `exec_command` are not part of the file:
  the transport is a list of segments to be read and a log of the bytes sent,
  `exec_command` is a parameter of `client_run`.
* `size_t` and `int` variables are `Nat`/`Int`; the only place where the width
  of `int` decides an outcome is the result of `atoi`, which is truncated to
  32 bits explicitly.
-/

namespace RocksdbServer

/-- The `error` type of `shared.h`: a C string, `NULL` (`none`) on success. -/
abbrev error := Option String

/-- The fields of `struct client_t` that the parser, the buffers and the encoder
use.  `args` holds the first `args_len` entries of the parallel C arrays `args`
(pointer, here the offset into `buf`) and `args_size`; `args_len` is its length,
so `c->args_len = 0` is `args := []`. -/
structure client where
  output : List Nat
  output_len : Nat
  output_cap : Nat
  buf : List Nat
  buf_cap : Nat
  buf_len : Nat
  buf_idx : Nat
  args : List (Nat × Nat)
  args_cap : Nat
  tmp_err : Option String
  closed : Bool
deriving DecidableEq, Repr

/-- The state after `client_new_pipe` / `client_new_tcp` / `client_new_unix`:
`memset(c, 0, sizeof(client))`. -/
def client_new : client :=
  { output := [], output_len := 0, output_cap := 0,
    buf := [], buf_cap := 0, buf_len := 0, buf_idx := 0,
    args := [], args_cap := 0, tmp_err := none, closed := false }

/-- Outcome of a loop of the parser: the enclosing function returned (`ret`), or
the loop ended and control goes on with the loop variables `a` (`next`). -/
inductive flow (α : Type) where
  | ret (e : error) (c : client) : flow α
  | next (a : α) (c : client) : flow α
deriving DecidableEq, Repr

/-! ## libc: `isspace`, `isdigit`, `atoi`, `sprintf("%d")` -/

/-- C `isspace` in the "C" locale: space and `\t \n \v \f \r`. -/
def isspace (b : Nat) : Bool := b = 32 || (9 ≤ b && b ≤ 13)

/-- C `isdigit`. -/
def isdigit (b : Nat) : Bool := 48 ≤ b && b ≤ 57

/-- The digit loop of `strtol`: accumulates decimal digits, stops at the first
byte that is no digit (the terminating NUL included) or at the end of the list. -/
def strtol_digits : List Nat → Nat → Nat
  | [], acc => acc
  | b :: bs, acc => if isdigit b then strtol_digits bs (acc * 10 + (b - 48)) else acc

/-- Saturation of `strtol` to the range of a 64-bit `long`. -/
def clamp_long (v : Int) : Int :=
  if v > 9223372036854775807 then 9223372036854775807
  else if v < -9223372036854775808 then -9223372036854775808 else v

/-- The function `strtol(s, NULL, 10)`: skips white space, takes an optional sign, reads the
digits, saturates. -/
def strtol (s : List Nat) : Int :=
  let t := s.dropWhile isspace
  if t.head? = some 45 then clamp_long (- (strtol_digits t.tail 0 : Int))
  else if t.head? = some 43 then clamp_long (strtol_digits t.tail 0 : Int)
  else clamp_long (strtol_digits t 0 : Int)

/-- Conversion of a `long` to a 32-bit `int` (two's complement truncation). -/
def to_int32 (v : Int) : Int := (v + 2147483648) % 4294967296 - 2147483648

/-- The function `atoi(s)` as the C library implements it: `(int) strtol(s, NULL, 10)`. -/
def atoi (s : List Nat) : Int := to_int32 (strtol s)

/-- Decimal digits of a natural number, most significant first (`fuel` bounds
the number of digits). -/
def utoa_fuel : Nat → Nat → List Nat
  | 0, _ => []
  | f + 1, n => if n < 10 then [48 + n] else utoa_fuel f (n / 10) ++ [48 + n % 10]

/-- Decimal digits of `n`. -/
def utoa (n : Nat) : List Nat := utoa_fuel (n + 1) n

/-- The bytes `sprintf(h, "%d", n)` writes for an `int` `n`. -/
def sprintf_d (n : Int) : List Nat :=
  if n < 0 then 45 :: utoa n.natAbs else utoa n.natAbs

/-- The number a run of decimal digits denotes, most significant digit first
(leading zeros allowed). -/
def decimal_value (ds : List Nat) : Nat := ds.foldl (fun acc b => acc * 10 + (b - 48)) 0

/-! ## The argument vector -/

/-- The function `client_append_arg` (lines 164-183). -/
def client_append_arg (c : client) (data nbyte : Nat) : client :=
  let args_cap :=
    if c.args_cap = c.args.length then
      (if c.args_cap = 0 then 1 else c.args_cap * 2)
    else c.args_cap
  { c with args_cap := args_cap, args := c.args ++ [(data, nbyte)] }

/-- The function `client_argc`. -/
def client_argc (c : client) : Nat := c.args.length

/-- The bytes argument `(p, n)` of the argument vector views: `n` bytes of `buf`
from offset `p`. -/
def arg_bytes (buf : List Nat) (a : Nat × Nat) : List Nat := (buf.drop a.1).take a.2

/-- The argument vector read as byte strings out of the buffer `buf`
(what `client_print_args` walks over). -/
def client_arg_values (buf : List Nat) (c : client) : List (List Nat) :=
  c.args.map (arg_bytes buf)

/-! ## Error values -/

def err_incomplete : String := "incomplete"
def err_multibulk_length : String := "Protocol error: invalid multibulk length"
def err_bulk_length : String := "Protocol error: invalid bulk length"
def err_bulk_data : String := "Protocol error: invalid bulk data"
def err_unbalanced : String := "Protocol error: unbalanced quotes in request"

/-- The function `client_err_expected_got` (lines 158-162): formats the message into
`tmp_err` and returns it. -/
def client_err_expected_got (c : client) (c1 c2 : Nat) : String × client :=
  let msg := "Protocol error: expected '" ++ String.singleton (Char.ofNat c1) ++
    "', got '" ++ String.singleton (Char.ofNat c2) ++ "'"
  (msg, { c with tmp_err := some msg })

/-! ## Releasing parsed bytes -/

/-- Lines 226-231 and 344-349, the same five lines in both grammars: the bytes
before `i` are released, and the cursor goes back to 0 when nothing is left. -/
def release (c : client) (i : Nat) : client :=
  let c := { c with buf_len := c.buf_len - (i - c.buf_idx) }
  if c.buf_len = 0 then { c with buf_idx := 0 } else { c with buf_idx := i }

/-! ## The inline (telnet) grammar -/

/-- The inner loop of lines 201-211, entered with `k = z - i`: looks for the
closing quote `b`.  At the quote it either appends the argument `[s, i)` and
leaves with `i - 1` (`i--; break`), or returns the error; when the loop
condition fails it leaves with `i`. -/
def telnet_quote_loop (z b s : Nat) : Nat → Nat → client → flow Nat
  | 0, i, c => .next i c
  | k + 1, i, c =>
    if c.buf.getD i 0 = b then
      if i + 1 ≥ z ∨ c.buf.getD (i + 1) 0 = 32 ∨ c.buf.getD (i + 1) 0 = 13
          ∨ c.buf.getD (i + 1) 0 = 10 then
        .next (i - 1) (client_append_arg c s (i - s))
      else
        .ret (some err_unbalanced) c
    else telnet_quote_loop z b s k (i + 1) c

/-- The outer loop of lines 193-245.  Every iteration advances `i`, so `fuel`
iterations suffice when `fuel ≥ z - i`; with no fuel left the loop condition
`i < z` is false and the function returns "incomplete" (line 246). -/
def telnet_loop (z : Nat) : Nat → Nat → Nat → Bool → client → error × client
  | 0, _, _, _, c => (some err_incomplete, c)
  | fuel + 1, i, s, first, c =>
    if i < z then
      if c.buf.getD i 0 = 39 ∨ c.buf.getD i 0 = 34 then
        if !first then (some err_unbalanced, c)
        else
          let b := c.buf.getD i 0
          let i := i + 1
          let s := i
          match telnet_quote_loop z b s (z - i) i c with
          | .ret e c => (e, c)
          | .next i c =>
            let i := i + 1
            telnet_loop z fuel (i + 1) s first c
      else if c.buf.getD i 0 = 10 then
        let c :=
          if !first then
            let e := if i > s ∧ c.buf.getD (i - 1) 0 = 13 then i - 1 else i
            client_append_arg c s (e - s)
          else c
        let i := i + 1
        (none, release c i)
      else if c.buf.getD i 0 = 32 then
        if !first then
          telnet_loop z fuel (i + 1) s true (client_append_arg c s (i - s))
        else
          telnet_loop z fuel (i + 1) s first c
      else
        if first then
          telnet_loop z fuel (i + 1) i false c
        else
          telnet_loop z fuel (i + 1) s first c
    else (some err_incomplete, c)

/-- The function `client_parse_telnet_command` (lines 184-247). -/
def client_parse_telnet_command (c : client) : error × client :=
  let i := c.buf_idx
  let z := c.buf_len + c.buf_idx
  if i ≥ z then (some err_incomplete, c)
  else
    let c := { c with args := [] }
    telnet_loop z (z - i) i i true c

/-! ## The multibulk grammar -/

/-- The loop of lines 284-300, entered with `k = z - i`: looks for the `\n` that
ends the `*<count>` header, reads the count with `atoi` (the `\r` before the
`\n` is overwritten by NUL for the call and restored after it) and leaves with
`(args_len, i)`. -/
def multibulk_count_loop (s : Nat) : Nat → Nat → client → flow (Int × Nat)
  | 0, i, c => .next (0, i) c
  | k + 1, i, c =>
    if c.buf.getD i 0 = 10 then
      if c.buf.getD (i - 1) 0 ≠ 13 then .ret (some err_multibulk_length) c
      else
        let c := { c with buf := c.buf.set (i - 1) 0 }
        let args_len := atoi (c.buf.drop s)
        let c := { c with buf := c.buf.set (i - 1) 13 }
        if args_len ≤ 0 ∧ (args_len < 0 ∨ i - s ≠ 2) then
          .ret (some err_multibulk_length) c
        else .next (args_len, i + 1) c
    else multibulk_count_loop s k (i + 1) c

/-- The loop of lines 314-342, entered with `k = z - i`: looks for the `\n` that
ends the `$<len>` header of one element, reads the length, checks that the data
and its `\r\n` are buffered, appends the argument and leaves with `i` after the
element.  `z - i < nsiz + 2` compares a `size_t` with an `int` that is not
negative here; were `nsiz + 2` to overflow `int`, its conversion to `size_t`
would still exceed `z - i`, as the unbounded sum does. -/
def multibulk_len_loop (z s : Nat) : Nat → Nat → client → flow Nat
  | 0, i, c => .next i c
  | k + 1, i, c =>
    if c.buf.getD i 0 = 10 then
      if c.buf.getD (i - 1) 0 ≠ 13 then .ret (some err_bulk_length) c
      else
        let c := { c with buf := c.buf.set (i - 1) 0 }
        let nsiz := atoi (c.buf.drop s)
        let c := { c with buf := c.buf.set (i - 1) 13 }
        if nsiz ≤ 0 ∧ (nsiz < 0 ∨ i - s ≠ 2) then
          .ret (some err_bulk_length) c
        else
          let i := i + 1
          if z - i < nsiz.toNat + 2 then .ret (some err_incomplete) c
          else
            let s := i
            if c.buf.getD (s + nsiz.toNat) 0 ≠ 13 then .ret (some err_bulk_data) c
            else if c.buf.getD (s + nsiz.toNat + 1) 0 ≠ 10 then .ret (some err_bulk_data) c
            else .next (i + (nsiz.toNat + 2)) (client_append_arg c s nsiz.toNat)
    else multibulk_len_loop z s k (i + 1) c

/-- The loop of lines 304-343 over the elements, entered with
`n = args_len - j` iterations to go. -/
def multibulk_args_loop (z : Nat) : Nat → Nat → client → flow Nat
  | 0, i, c => .next i c
  | n + 1, i, c =>
    if i ≥ z then .ret (some err_incomplete) c
    else if c.buf.getD i 0 ≠ 36 then
      let r := client_err_expected_got c 36 (c.buf.getD i 0)
      .ret (some r.1) r.2
    else
      let i := i + 1
      match multibulk_len_loop z i (z - i) i c with
      | .ret e c => .ret e c
      | .next i c => multibulk_args_loop z n i c

/-- The function `client_parse_command` (lines 271-351). -/
def client_parse_command (c : client) : error × client :=
  let c := { c with args := [] }
  let i := c.buf_idx
  let z := c.buf_idx + c.buf_len
  if i ≥ z then (some err_incomplete, c)
  else if c.buf.getD i 0 ≠ 42 then client_parse_telnet_command c
  else
    let i := i + 1
    match multibulk_count_loop i (z - i) i c with
    | .ret e c => (e, c)
    | .next (args_len, i) c =>
      if i ≥ z then (some err_incomplete, c)
      else
        match multibulk_args_loop z args_len.toNat i c with
        | .ret e c => (e, c)
        | .next i c => (none, release c i)

/-- The unconsumed bytes of the input buffer: `buf[buf_idx, buf_idx + buf_len)`. -/
def unconsumed (c : client) : List Nat := (c.buf.drop c.buf_idx).take c.buf_len

/-- Several `client_append_arg` calls in a row. -/
def append_args (c : client) (l : List (Nat × Nat)) : client :=
  l.foldl (fun c a => client_append_arg c a.1 a.2) c

/-! ## The output buffer and the encoder -/

/-- C `realloc(p, cap)`: the old bytes are kept; the bytes gained are
indeterminate in C and 0 here. -/
def realloc (p : List Nat) (cap : Nat) : List Nat :=
  p.take cap ++ List.replicate (cap - p.length) 0

/-- C `memcpy(dst + off, src, n)`: `dst[off + j] = src[j]` for `j < n`. -/
def memcpy (dst : List Nat) : Nat → List Nat → Nat → List Nat
  | _, _, 0 => dst
  | off, src, n + 1 => memcpy (dst.set off (src.getD 0 0)) (off + 1) src.tail n

/-- The `while` loop of `client_output_require` (lines 388-394): the capacity
is doubled (1 from 0) until it reaches `siz`.  `fuel` bounds the number of
rounds; `siz + 1` rounds always suffice. -/
def output_cap_loop (siz : Nat) : Nat → Nat → Nat
  | 0, cap => cap
  | fuel + 1, cap =>
    if cap < siz then output_cap_loop siz fuel (if cap = 0 then 1 else cap * 2) else cap

/-- The function `client_output_require` (lines 386-400). -/
def client_output_require (c : client) (siz : Nat) : client :=
  if c.output_cap < siz then
    let cap := output_cap_loop siz (siz + 1) c.output_cap
    { c with output_cap := cap, output := realloc c.output cap }
  else c

/-- The function `client_clear` (lines 402-404). -/
def client_clear (c : client) : client := { c with output_len := 0 }

/-- The function `client_write_byte` (lines 406-409). -/
def client_write_byte (c : client) (b : Nat) : client :=
  let c := client_output_require c (c.output_len + 1)
  { c with output := c.output.set c.output_len b, output_len := c.output_len + 1 }

/-- The function `client_write` (lines 411-415). -/
def client_write (c : client) (data : List Nat) (n : Nat) : client :=
  let c := client_output_require c (c.output_len + n)
  { c with output := memcpy c.output c.output_len data n, output_len := c.output_len + n }

/-- The function `client_write_bulk` (lines 417-424); `strlen(h)` is the length of the
formatted header, which holds no NUL. -/
def client_write_bulk (c : client) (data : List Nat) (n : Nat) : client :=
  let h := 36 :: (sprintf_d n ++ [13, 10])
  let c := client_write c h h.length
  let c := client_write c data n
  let c := client_write_byte c 13
  client_write_byte c 10

/-- The function `client_write_multibulk` (lines 426-430). -/
def client_write_multibulk (c : client) (n : Int) : client :=
  let h := 42 :: (sprintf_d n ++ [13, 10])
  client_write c h h.length

/-- The function `client_write_int` (lines 432-436). -/
def client_write_int (c : client) (n : Int) : client :=
  let h := 58 :: (sprintf_d n ++ [13, 10])
  client_write c h h.length

/-- The bytes of a C string (`error`) as `client_write` copies them. -/
def string_bytes (s : String) : List Nat := s.toList.map Char.toNat

/-- C `strlen`: the number of bytes before the first NUL. -/
def strlen (s : List Nat) : Nat := (s.takeWhile (fun b => b ≠ 0)).length

/-- The bytes of the C string an `error` points to: the bytes before the first
NUL (`client_err_expected_got` formats a byte of the input with `%c`, which may
be NUL). -/
def c_string (s : String) : List Nat := (string_bytes s).takeWhile (fun b => b ≠ 0)

/-- The function `client_write_error` (lines 438-443). -/
def client_write_error (c : client) (err : String) : client :=
  let c := client_write c (string_bytes "-ERR ") 5
  let c := client_write c (string_bytes err) (strlen (string_bytes err))
  let c := client_write_byte c 13
  client_write_byte c 10

/-- The output buffer is allocated to its capacity and its length is within it. -/
def output_ok (c : client) : Prop :=
  c.output.length = c.output_cap ∧ c.output_len ≤ c.output_cap

/-- The pending output `client_raw` / `client_raw_len` give access to:
`output[0, output_len)`. -/
def client_raw_bytes (c : client) : List Nat := c.output.take c.output_len

/-- An argument vector written as a multibulk request with the encoder:
`client_write_multibulk` for the count, `client_write_bulk` per element. -/
def client_write_request (c : client) (args : List (List Nat)) : client :=
  args.foldl (fun c a => client_write_bulk c a a.length)
    (client_write_multibulk c args.length)

/-! ## Reading a command -/

/-- What the transport holds for the reads to come: bytes that arrive together
(one read returns at most these), or a failing read.  The empty list is the end
of the stream. -/
inductive segment where
  | data (d : List Nat) : segment
  | fail : segment
deriving DecidableEq, Repr

/-- The function `client_read` (lines 112-136) on a transport that holds `t`: the byte count
`n` of `read` / `tcprecvuntil` / `unixrecvuntil` (at most `nbyte`, 0 at the end
of the stream, -1 on failure), the bytes read, the error and what the transport
holds afterwards. -/
def client_read (t : List segment) (nbyte : Nat) : error × Int × List Nat × List segment :=
  let r : Int × List Nat × List segment :=
    match t with
    | [] => (0, [], [])
    | .fail :: t => (-1, [], t)
    | .data d :: t =>
      if d.length ≤ nbyte then (d.length, d, t)
      else (nbyte, d.take nbyte, .data (d.drop nbyte) :: t)
  if r.1 ≤ 0 then
    if r.1 = 0 then (some "eof", r) else (some "bad read", r)
  else (none, r)

/-- The function `client_read_command` (lines 353-384).  The C function calls itself after
every successful read; `fuel` bounds the number of reads.  The byte count asked
of the transport, `buf_cap - buf_idx - buf_len`, is not negative as long
as `buf_idx + buf_len ≤ buf_cap`. -/
def client_read_command : Nat → client → List segment → error × client × List segment
  | 0, c, t => (some err_incomplete, c, t)
  | fuel + 1, c, t =>
    match client_parse_command c with
    | (none, c) => (none, c, t)
    | (some err, c) =>
      if err ≠ err_incomplete then (some err, c, t)
      else
        let c :=
          if (c.buf_cap : Int) - (c.buf_len : Int) = 0 then
            let cap := if c.buf_cap = 0 then 1 else c.buf_cap * 2
            { c with buf_cap := cap, buf := realloc c.buf cap }
          else c
        match client_read t (c.buf_cap - c.buf_idx - c.buf_len) with
        | (some err, _, _, t) =>
          if c.buf_len > 0 then (some "Protocol error: incomplete command", c, t)
          else (some err, c, t)
        | (none, n, d, t) =>
          let c := { c with buf := memcpy c.buf (c.buf_idx + c.buf_len) d n.toNat }
          let c := { c with buf_len := c.buf_len + n.toNat }
          client_read_command fuel c t

/-- A client whose input buffer holds `x` as its unconsumed bytes, after `pre`
consumed bytes and before `post` free bytes. -/
def client_with_input (pre x post : List Nat) : client :=
  { client_new with
    buf := pre ++ x ++ post
    buf_cap := pre.length + x.length + post.length
    buf_idx := pre.length
    buf_len := x.length }

/-! ## The steps of `client_read_command` on the input buffer -/

/-- Lines 363-373: the input buffer is doubled (1 from 0) when
`buf_cap - buf_len == 0`. -/
def input_grow (c : client) : client :=
  if (c.buf_cap : Int) - (c.buf_len : Int) = 0 then
    let cap := if c.buf_cap = 0 then 1 else c.buf_cap * 2
    { c with buf_cap := cap, buf := realloc c.buf cap }
  else c

/-- The byte count line 375 asks of the transport: the free tail of the buffer,
`buf_cap - buf_idx - buf_len`. -/
def input_room (c : client) : Nat := c.buf_cap - c.buf_idx - c.buf_len

/-- Lines 375 and 382 for a read that returned the `n` bytes `d`: they are
stored from `buf + buf_idx + buf_len` and `buf_len` grows by `n`. -/
def input_append (c : client) (d : List Nat) (n : Nat) : client :=
  let c := { c with buf := memcpy c.buf (c.buf_idx + c.buf_len) d n }
  { c with buf_len := c.buf_len + n }

/-- The states of the input buffer reachable from a fresh client through parse
attempts, buffer growth and transport reads that return at most the byte count
asked for. -/
inductive input_reachable : client → Prop where
  | fresh : input_reachable client_new
  | parse (c : client) : input_reachable c → input_reachable (client_parse_command c).2
  | grow (c : client) : input_reachable c → input_reachable (input_grow c)
  | read (c : client) (d : List Nat) : input_reachable c → d.length ≤ input_room c →
      input_reachable (input_append c d d.length)

/-- The number of reads a transport can serve at most: every successful read
takes at least one byte or one segment. -/
def transport_weight : List segment → Nat
  | [] => 0
  | .data d :: t => d.length + 1 + transport_weight t
  | .fail :: t => 1 + transport_weight t

/-- The function `client_read_command` run until it returns: the transport cannot serve
more than `transport_weight t` reads. -/
def read_command (c : client) (t : List segment) : error × client × List segment :=
  client_read_command (transport_weight t + 1) c t

/-! ## The session loop -/

/-- A session: the client, what the transport holds for the reads to come, and
all the bytes written to the transport so far. -/
structure session where
  c : client
  transport : List segment
  sent : List Nat
deriving DecidableEq, Repr

/-- The function `client_flush_offset` (lines 451-469): the three transport kinds all
send the bytes `output[offset, output_len)`. -/
def client_flush_offset (s : session) (offset : Nat) : session :=
  if (s.c.output_len : Int) - (offset : Int) ≤ 0 then s
  else
    { s with
      sent := s.sent ++ (s.c.output.drop offset).take (s.c.output_len - offset)
      c := { s.c with output_len := 0 } }

/-- The function `client_flush` (lines 447-449). -/
def client_flush (s : session) : session := client_flush_offset s 0

/-- Lines 479-481 and 486-488 of `client_run`, the same three calls: the output
buffer is cleared, the error reply is encoded and the output is flushed. -/
def reply_error (s : session) (err : String) : session :=
  client_flush { s with c := client_write_error (client_clear s.c) err }

/-- The function `client_run` (lines 472-492).  The dispatch call `exec_command` is not
part of the file and is a parameter: it gets the session and returns an error
or `NULL`.  The C loop has no exit but the return on a read error; `fuel`
bounds the number of commands, and `none` is a loop still running. -/
def client_run (exec_command : session → error × session) :
    Nat → session → Option (error × session)
  | 0, _ => none
  | fuel + 1, s =>
    match read_command s.c s.transport with
    | (some err, c, t) =>
      let s := { s with c := c, transport := t }
      if err = "eof" then some (none, s)
      else some (some err, reply_error s err)
    | (none, c, t) =>
      match exec_command { s with c := c, transport := t } with
      | (some err, s) => client_run exec_command fuel (reply_error s err)
      | (none, s) => client_run exec_command fuel s

/-! ## Sequences of encode calls -/

/-- One call of the output encoder. -/
inductive encode_call where
  | write (data : List Nat) (n : Nat) : encode_call
  | write_bulk (data : List Nat) (n : Nat) : encode_call
  | write_multibulk (n : Int) : encode_call
  | write_int (n : Int) : encode_call
  | write_error (err : String) : encode_call
deriving DecidableEq, Repr

/-- The call made on a client. -/
def encode_call.run (c : client) : encode_call → client
  | .write data n => client_write c data n
  | .write_bulk data n => client_write_bulk c data n
  | .write_multibulk n => client_write_multibulk c n
  | .write_int n => client_write_int c n
  | .write_error err => client_write_error c err

/-- The call reads its `n` bytes inside `data`. -/
def encode_call.ok : encode_call → Prop
  | .write data n => n ≤ data.length
  | .write_bulk data n => n ≤ data.length
  | _ => True

instance (e : encode_call) : Decidable e.ok := by
  cases e <;> unfold encode_call.ok <;> infer_instance

/-- The bytes the call appends to the output. -/
def encode_call.bytes : encode_call → List Nat
  | .write data n => data.take n
  | .write_bulk data n => 36 :: (sprintf_d n ++ 13 :: 10 :: (data.take n ++ [13, 10]))
  | .write_multibulk n => 42 :: (sprintf_d n ++ [13, 10])
  | .write_int n => 58 :: (sprintf_d n ++ [13, 10])
  | .write_error err => string_bytes "-ERR " ++ (c_string err ++ [13, 10])

/-- A sequence of encode calls made one after the other. -/
def encode_calls (c : client) (l : List encode_call) : client :=
  l.foldl encode_call.run c

/-! ## What a parse attempt leaves -/

/-- Every span of `args` lies in `[lo, hi]`. -/
def spans_within (lo hi : Nat) (args : List (Nat × Nat)) : Prop :=
  ∀ a ∈ args, lo ≤ a.1 ∧ a.1 + a.2 ≤ hi

/-- The buffers of `c2` are those of `c`: input bytes, cursor, length and
capacity, and output bytes, length and capacity. -/
def same_buffers (c c2 : client) : Prop :=
  c2.buf = c.buf ∧ c2.buf_len = c.buf_len ∧ c2.buf_idx = c.buf_idx ∧ c2.buf_cap = c.buf_cap ∧
  c2.output = c.output ∧ c2.output_len = c.output_len ∧ c2.output_cap = c.output_cap

/-- What holds of the outcome of a loop: `P` of the client when the function
returned with the error `e`, `Q` of the loop variables and the client when the loop ended. -/
def flow.post {α : Type} (P : error → client → Prop) (Q : α → client → Prop) : flow α → Prop
  | .ret e c => P e c
  | .next a c => Q a c

/-- What a parse attempt that started at `i` with the arguments inside `[lo, i]`
leaves: on "incomplete" or an error the buffers of `c`; on success the release
at an index `i2` in `(i, z]` of a client with the buffers of `c` whose
arguments lie inside `[lo, i2]`. -/
def parse_outcome (c : client) (lo i z : Nat) (r : error × client) : Prop :=
  (r.1 ≠ none → same_buffers c r.2) ∧
  (r.1 = none → ∃ i2 c2, r.2 = release c2 i2 ∧ same_buffers c c2 ∧ i < i2 ∧ i2 ≤ z ∧
    spans_within lo i2 c2.args)

/-! ## Well-formed requests

The byte strings the claims quantify over.  `multibulk_request` is the
`*<count>\r\n` header followed by one `$<len>\r\n<len bytes>\r\n` per
argument. -/

/-- One element `$<len>\r\n<len bytes>\r\n`. -/
def bulk_bytes (a : List Nat) : List Nat :=
  36 :: (sprintf_d a.length ++ 13 :: 10 :: (a ++ [13, 10]))

/-- The elements of a request, one after the other. -/
def bulks_bytes : List (List Nat) → List Nat
  | [] => []
  | a :: as => bulk_bytes a ++ bulks_bytes as

/-- The multibulk request that carries the argument vector `args`. -/
def multibulk_request (args : List (List Nat)) : List Nat :=
  42 :: (sprintf_d args.length ++ 13 :: 10 :: bulks_bytes args)

/-- Where the data of each element lies when the elements start at offset `p`:
(offset, length) per argument. -/
def bulk_spans (p : Nat) : List (List Nat) → List (Nat × Nat)
  | [] => []
  | a :: as =>
    (p + 1 + (sprintf_d a.length).length + 2, a.length) ::
      bulk_spans (p + (bulk_bytes a).length) as

/-! ## Inline request lines

A line is written as tokens, every token but the last followed by one or more
spaces, the last followed by `\n`. -/

/-- A token as it is written: a bare word, or a string between two quotes `q`. -/
inductive token where
  | bare (w : List Nat) : token
  | quoted (q : Nat) (w : List Nat) : token
deriving DecidableEq, Repr

/-- The bytes of a token on the wire. -/
def token.render : token → List Nat
  | .bare w => w
  | .quoted q w => q :: (w ++ [q])

/-- The content of a token, quotes excluded. -/
def token.value : token → List Nat
  | .bare w => w
  | .quoted _ w => w

/-- A byte that may stand in a bare word: no space, quote, `\r` or `\n`. -/
def bare_byte (b : Nat) : Prop := b ≠ 32 ∧ b ≠ 39 ∧ b ≠ 34 ∧ b ≠ 13 ∧ b ≠ 10

instance (b : Nat) : Decidable (bare_byte b) := by unfold bare_byte; infer_instance

/-- A bare word is not empty and made of `bare_byte`s; a quoted string is in
single or double quotes and does not contain its own quote. -/
def token.wf : token → Prop
  | .bare w => w ≠ [] ∧ ∀ b ∈ w, bare_byte b
  | .quoted q w => (q = 39 ∨ q = 34) ∧ q ∉ w

instance (t : token) : Decidable t.wf := by
  cases t <;> unfold token.wf <;> infer_instance

/-- Where the content of a token that starts at offset `i` lies: (offset, length). -/
def token.span (i : Nat) : token → Nat × Nat
  | .bare w => (i, w.length)
  | .quoted _ w => (i + 1, w.length)

/-- Tokens, each followed by `n + 1` spaces. -/
def inline_tokens : List (token × Nat) → List Nat
  | [] => []
  | (t, n) :: ts => t.render ++ 32 :: (List.replicate n 32 ++ inline_tokens ts)

/-- A line: tokens followed by spaces, a last token, `\n`. -/
def inline_line (pre : List (token × Nat)) (last : token) : List Nat :=
  inline_tokens pre ++ (last.render ++ [10])

/-- The spans of the tokens of `inline_tokens pre` when it starts at offset `i`. -/
def inline_spans (i : Nat) : List (token × Nat) → List (Nat × Nat)
  | [] => []
  | (t, n) :: ts => t.span i :: inline_spans (i + t.render.length + 1 + n) ts

/-! # Theorems

## libc helpers -/

theorem utoa_fuel_indep : ∀ (f1 f2 m : Nat), m < f1 → m < f2 → utoa_fuel f1 m = utoa_fuel f2 m := by
  intro f1
  induction f1 with
  | zero => intro f2 m h; omega
  | succ k ih =>
    intro f2 m h1 h2
    cases f2 with
    | zero => omega
    | succ k2 =>
      simp only [utoa_fuel]
      split
      · rfl
      · rw [ih k2 (m / 10) (by omega) (by omega)]

theorem utoa_lt10 (n : Nat) (h : n < 10) : utoa n = [48 + n] := by
  simp [utoa, utoa_fuel, h]

theorem utoa_ge10 (n : Nat) (h : 10 ≤ n) : utoa n = utoa (n / 10) ++ [48 + n % 10] := by
  have h1 : ¬ n < 10 := by omega
  show utoa_fuel (n + 1) n = utoa_fuel (n / 10 + 1) (n / 10) ++ [48 + n % 10]
  rw [utoa_fuel, if_neg h1, utoa_fuel_indep n (n / 10 + 1) (n / 10) (by omega) (by omega)]

theorem utoa_digits (n : Nat) : ∀ b ∈ utoa n, 48 ≤ b ∧ b ≤ 57 := by
  induction n using Nat.strong_induction_on with
  | _ n ih =>
    intro b hb
    by_cases h : n < 10
    · rw [utoa_lt10 n h] at hb
      simp at hb
      omega
    · rw [utoa_ge10 n (by omega)] at hb
      simp at hb
      rcases hb with hb | hb
      · exact ih (n / 10) (by omega) b hb
      · omega

theorem utoa_ne_nil (n : Nat) : utoa n ≠ [] := by
  by_cases h : n < 10
  · rw [utoa_lt10 n h]; simp
  · rw [utoa_ge10 n (by omega)]; simp

theorem utoa_length_pos (n : Nat) : 0 < (utoa n).length :=
  List.length_pos.mpr (utoa_ne_nil n)

theorem utoa_zero_length : (utoa 0).length = 1 := by decide

theorem strtol_digits_utoa (n : Nat) : ∀ rest : List Nat,
    strtol_digits (utoa n ++ rest) 0 = strtol_digits rest n := by
  induction n using Nat.strong_induction_on with
  | _ n ih =>
    intro rest
    by_cases h : n < 10
    · rw [utoa_lt10 n h]
      have hd : isdigit (48 + n) = true := by simp [isdigit]; omega
      simp [strtol_digits, hd]
    · rw [utoa_ge10 n (by omega), List.append_assoc, ih (n / 10) (by omega)]
      have hd : isdigit (48 + n % 10) = true := by simp [isdigit]; omega
      simp only [List.singleton_append, strtol_digits, hd, if_true]
      congr 1
      omega

theorem atoi_utoa (n : Nat) (hn : n < 2147483648) (b : Nat) (hb : isdigit b = false)
    (rest : List Nat) : atoi (utoa n ++ b :: rest) = (n : Int) := by
  obtain ⟨d, ds, hds⟩ := List.exists_cons_of_ne_nil (utoa_ne_nil n)
  have hdd := utoa_digits n d (by rw [hds]; simp)
  have hsp : isspace d = false := by
    simp [isspace]; omega
  have h1 : List.dropWhile isspace (utoa n ++ b :: rest) = utoa n ++ b :: rest := by
    rw [hds]; simp [List.dropWhile, hsp]
  have h2 : (utoa n ++ b :: rest).head? = some d := by rw [hds]; simp
  have h3 : strtol_digits (utoa n ++ b :: rest) 0 = n := by
    rw [strtol_digits_utoa]; simp [strtol_digits, hb]
  have h45 : d ≠ 45 := by omega
  have h43 : d ≠ 43 := by omega
  simp only [atoi, strtol, h1, h2, Option.some.injEq, h45, h43, if_false, h3]
  simp only [clamp_long, to_int32]
  have : ¬ ((n : Int) > 9223372036854775807) := by omega
  have : ¬ ((n : Int) < -9223372036854775808) := by omega
  simp only [*, if_false]
  omega

theorem sprintf_d_nat (n : Nat) : sprintf_d (n : Int) = utoa n := by
  simp [sprintf_d]

theorem getD_of_view {buf : List Nat} {s : Nat} {l : List Nat} (h : buf.drop s = l) (j : Nat) :
    buf.getD (s + j) 0 = l.getD j 0 := by
  subst h; simp [List.getElem?_drop]

theorem getD_append_lt (l r : List Nat) (j : Nat) (h : j < l.length) :
    (l ++ r).getD j 0 = l.getD j 0 := by
  simp [List.getElem?_append_left h]

theorem getD_append_add (l r : List Nat) (j : Nat) :
    (l ++ r).getD (l.length + j) 0 = r.getD j 0 := by
  simp [List.getElem?_append_right (Nat.le_add_right l.length j)]

theorem getD_mem (l : List Nat) (j : Nat) (h : j < l.length) : l.getD j 0 ∈ l := by
  simp [List.getElem?_eq_getElem h]

theorem set_view {buf : List Nat} {s : Nat} {t r : List Nat} {a : Nat}
    (h : buf.drop s = t ++ a :: r) (v : Nat) :
    (buf.set (s + t.length) v).drop s = t ++ v :: r := by
  rw [List.drop_set, if_neg (by omega), h, Nat.add_sub_cancel_left,
    List.set_append_right _ _ (Nat.le_refl _)]
  simp

theorem set_restore {buf : List Nat} {p : Nat} {r : List Nat} (h : buf.drop p = 13 :: r)
    (v : Nat) : (buf.set p v).set p 13 = buf := by
  rw [List.set_set]
  have h2 := getD_of_view h 0
  apply List.ext_getElem?
  intro n
  rw [List.getElem?_set]
  split
  · next hp =>
    subst hp
    split
    · next hl =>
      simp [List.getElem?_eq_getElem hl] at h2 ⊢
      exact h2.symm
    · next hl =>
      simp at hl
      simp [hl]
  · rfl

theorem drop_view_add {buf : List Nat} {s : Nat} {l r : List Nat} (h : buf.drop s = l ++ r) :
    buf.drop (s + l.length) = r := by
  rw [← List.drop_drop, h, List.drop_left]

/-- Bytes seen through a view `drop s = text ++ 13 :: 10 :: rest`. -/
theorem view_text {buf : List Nat} {s : Nat} {text rest : List Nat}
    (h : buf.drop s = text ++ 13 :: 10 :: rest) (hnl : 10 ∉ text) (j : Nat)
    (hj : j < text.length) : buf.getD (s + j) 0 ≠ 10 := by
  rw [getD_of_view h, getD_append_lt _ _ _ hj]
  intro h10
  exact hnl (h10 ▸ getD_mem text j hj)

theorem view_cr {buf : List Nat} {s : Nat} {text rest : List Nat}
    (h : buf.drop s = text ++ 13 :: 10 :: rest) : buf.getD (s + text.length) 0 = 13 := by
  rw [getD_of_view h]
  have := getD_append_add text (13 :: 10 :: rest) 0
  simpa using this

theorem view_lf {buf : List Nat} {s : Nat} {text rest : List Nat}
    (h : buf.drop s = text ++ 13 :: 10 :: rest) : buf.getD (s + text.length + 1) 0 = 10 := by
  rw [Nat.add_assoc, getD_of_view h]
  have := getD_append_add text (13 :: 10 :: rest) 1
  simpa using this

theorem multibulk_count_loop_scan (c : client) (s : Nat) (text rest : List Nat)
    (h : c.buf.drop s = text ++ 13 :: 10 :: rest) (hnl : 10 ∉ text) :
    ∀ (d j k : Nat), j + d = text.length → text.length + 2 ≤ j + k →
      multibulk_count_loop s k (s + j) c =
        (if atoi (text ++ 0 :: 10 :: rest) ≤ 0 ∧
            (atoi (text ++ 0 :: 10 :: rest) < 0 ∨ text.length + 1 ≠ 2)
         then flow.ret (some err_multibulk_length) c
         else flow.next (atoi (text ++ 0 :: 10 :: rest), s + text.length + 2) c) := by
  intro d
  induction d with
  | zero =>
    intro j k hj hk
    have hj' : j = text.length := by omega
    subst hj'
    obtain ⟨k2, rfl⟩ : ∃ k2, k = k2 + 2 := ⟨k - 2, by omega⟩
    have hcr := view_cr h
    have hlf := view_lf h
    have hview : c.buf.drop (s + text.length) = 13 :: 10 :: rest := drop_view_add h
    rw [multibulk_count_loop, if_neg (by rw [hcr]; decide), multibulk_count_loop,
      if_pos hlf]
    simp only [Nat.add_sub_cancel, hcr, ne_eq, not_true_eq_false, if_false]
    rw [set_view h, set_restore hview]
    have e1 : s + text.length + 1 - s = text.length + 1 := by omega
    rw [e1]
  | succ d ih =>
    intro j k hj hk
    obtain ⟨k1, rfl⟩ : ∃ k1, k = k1 + 1 := ⟨k - 1, by omega⟩
    rw [multibulk_count_loop, if_neg (view_text h hnl j (by omega))]
    exact ih (j + 1) k1 (by omega) (by omega)

theorem multibulk_len_loop_scan (c : client) (z s : Nat) (text rest : List Nat)
    (h : c.buf.drop s = text ++ 13 :: 10 :: rest) (hnl : 10 ∉ text) :
    ∀ (d j k : Nat), j + d = text.length → text.length + 2 ≤ j + k →
      multibulk_len_loop z s k (s + j) c =
        (if atoi (text ++ 0 :: 10 :: rest) ≤ 0 ∧
            (atoi (text ++ 0 :: 10 :: rest) < 0 ∨ text.length + 1 ≠ 2)
         then flow.ret (some err_bulk_length) c
         else if z - (s + text.length + 2) < (atoi (text ++ 0 :: 10 :: rest)).toNat + 2
         then flow.ret (some err_incomplete) c
         else if c.buf.getD (s + text.length + 2 + (atoi (text ++ 0 :: 10 :: rest)).toNat) 0 ≠ 13
         then flow.ret (some err_bulk_data) c
         else if c.buf.getD (s + text.length + 2 + (atoi (text ++ 0 :: 10 :: rest)).toNat + 1) 0
            ≠ 10
         then flow.ret (some err_bulk_data) c
         else flow.next (s + text.length + 2 + ((atoi (text ++ 0 :: 10 :: rest)).toNat + 2))
            (client_append_arg c (s + text.length + 2) (atoi (text ++ 0 :: 10 :: rest)).toNat))
    := by
  intro d
  induction d with
  | zero =>
    intro j k hj hk
    have hj' : j = text.length := by omega
    subst hj'
    obtain ⟨k2, rfl⟩ : ∃ k2, k = k2 + 2 := ⟨k - 2, by omega⟩
    have hcr := view_cr h
    have hlf := view_lf h
    have hview : c.buf.drop (s + text.length) = 13 :: 10 :: rest := drop_view_add h
    rw [multibulk_len_loop, if_neg (by rw [hcr]; decide), multibulk_len_loop,
      if_pos hlf]
    simp only [Nat.add_sub_cancel, hcr, ne_eq, not_true_eq_false, if_false]
    rw [set_view h, set_restore hview]
    have e1 : s + text.length + 1 - s = text.length + 1 := by omega
    rw [e1]
  | succ d ih =>
    intro j k hj hk
    obtain ⟨k1, rfl⟩ : ∃ k1, k = k1 + 1 := ⟨k - 1, by omega⟩
    rw [multibulk_len_loop, if_neg (view_text h hnl j (by omega))]
    exact ih (j + 1) k1 (by omega) (by omega)

/-! ## The multibulk grammar on well-formed requests -/

@[simp] theorem client_append_arg_buf (c : client) (p n : Nat) :
    (client_append_arg c p n).buf = c.buf := rfl
@[simp] theorem client_append_arg_buf_len (c : client) (p n : Nat) :
    (client_append_arg c p n).buf_len = c.buf_len := rfl
@[simp] theorem client_append_arg_buf_idx (c : client) (p n : Nat) :
    (client_append_arg c p n).buf_idx = c.buf_idx := rfl
@[simp] theorem client_append_arg_args (c : client) (p n : Nat) :
    (client_append_arg c p n).args = c.args ++ [(p, n)] := rfl

theorem append_args_nil (c : client) : append_args c [] = c := rfl
theorem append_args_cons (c : client) (a : Nat × Nat) (l : List (Nat × Nat)) :
    append_args c (a :: l) = append_args (client_append_arg c a.1 a.2) l := rfl
theorem append_args_append (c : client) (l1 l2 : List (Nat × Nat)) :
    append_args c (l1 ++ l2) = append_args (append_args c l1) l2 := by
  simp [append_args, List.foldl_append]

@[simp] theorem append_args_buf (c : client) (l : List (Nat × Nat)) :
    (append_args c l).buf = c.buf := by
  induction l generalizing c with
  | nil => rfl
  | cons a l ih => rw [append_args_cons, ih]; rfl
@[simp] theorem append_args_buf_len (c : client) (l : List (Nat × Nat)) :
    (append_args c l).buf_len = c.buf_len := by
  induction l generalizing c with
  | nil => rfl
  | cons a l ih => rw [append_args_cons, ih]; rfl
@[simp] theorem append_args_buf_idx (c : client) (l : List (Nat × Nat)) :
    (append_args c l).buf_idx = c.buf_idx := by
  induction l generalizing c with
  | nil => rfl
  | cons a l ih => rw [append_args_cons, ih]; rfl
@[simp] theorem append_args_args (c : client) (l : List (Nat × Nat)) :
    (append_args c l).args = c.args ++ l := by
  induction l generalizing c with
  | nil => simp [append_args_nil]
  | cons a l ih => rw [append_args_cons, ih]; simp

theorem utoa_no_lf (n : Nat) : 10 ∉ utoa n := by
  intro h
  have := utoa_digits n 10 h
  omega

theorem bulk_bytes_length (a : List Nat) :
    (bulk_bytes a).length = 1 + (utoa a.length).length + 2 + a.length + 2 := by
  simp [bulk_bytes, sprintf_d_nat]
  omega

theorem multibulk_args_loop_ok (z : Nat) : ∀ (args : List (List Nat)) (i : Nat) (c : client)
    (rest : List Nat), c.buf.drop i = bulks_bytes args ++ rest →
    (∀ a ∈ args, a.length < 2147483648) → i + (bulks_bytes args).length ≤ z →
    multibulk_args_loop z args.length i c =
      flow.next (i + (bulks_bytes args).length) (append_args c (bulk_spans i args)) := by
  intro args
  induction args with
  | nil => intro i c rest _ _ _; rfl
  | cons a as ih =>
    intro i c rest hview hlen hz
    have hal : a.length < 2147483648 := hlen a (by simp)
    have hbl := bulk_bytes_length a
    simp only [bulks_bytes, List.length_append] at hz
    -- the `$`
    have hv0 : c.buf.drop i = 36 :: (utoa a.length ++ 13 :: 10 ::
        (a ++ 13 :: 10 :: (bulks_bytes as ++ rest))) := by
      rw [hview]; simp [bulks_bytes, bulk_bytes, sprintf_d_nat]
    have h36 : c.buf.getD i 0 = 36 := by
      have := getD_of_view hv0 0; simpa using this
    have hv1 : c.buf.drop (i + 1) = utoa a.length ++ 13 :: 10 ::
        (a ++ 13 :: 10 :: (bulks_bytes as ++ rest)) := by
      have := drop_view_add (l := [36]) (by simpa using hv0)
      simpa using this
    have hatoi : atoi (utoa a.length ++ 0 :: 10 :: (a ++ 13 :: 10 :: (bulks_bytes as ++ rest)))
        = (a.length : Int) := atoi_utoa a.length hal 0 (by decide) _
    have hscan := multibulk_len_loop_scan c z (i + 1) (utoa a.length) _ hv1 (utoa_no_lf _)
      (utoa a.length).length 0 (z - (i + 1)) (by omega) (by omega)
    rw [hatoi] at hscan
    have hv2 : c.buf.drop (i + 1 + (utoa a.length).length + 2) =
        a ++ 13 :: 10 :: (bulks_bytes as ++ rest) := by
      have := drop_view_add (l := utoa a.length ++ [13, 10]) (by simpa using hv1)
      simpa [Nat.add_assoc] using this
    have hcr : c.buf.getD (i + 1 + (utoa a.length).length + 2 + a.length) 0 = 13 :=
      view_cr hv2
    have hlf : c.buf.getD (i + 1 + (utoa a.length).length + 2 + a.length + 1) 0 = 10 :=
      view_lf hv2
    have hv3 : c.buf.drop (i + (bulk_bytes a).length) = bulks_bytes as ++ rest := by
      have := drop_view_add (l := a ++ [13, 10]) (by simpa using hv2)
      rw [hbl]
      simpa [Nat.add_assoc] using this
    have hc1 : ¬ ((a.length : Int) ≤ 0 ∧ ((a.length : Int) < 0 ∨ (utoa a.length).length + 1 ≠ 2))
        := by
      rintro ⟨h0, h1⟩
      have h00 : a.length = 0 := by omega
      rw [h00] at h1
      rcases h1 with h1 | h1
      · omega
      · exact h1 (by decide)
    simp only [Nat.add_zero, Int.toNat_ofNat, hc1, if_false, hcr, hlf, ne_eq,
      not_true_eq_false] at hscan
    rw [if_neg (by omega)] at hscan
    show multibulk_args_loop z (as.length + 1) i c = _
    rw [multibulk_args_loop, if_neg (by omega), if_neg (by rw [h36]; decide)]
    simp only [hscan]
    have e : i + 1 + (utoa a.length).length + 2 + (a.length + 2) = i + (bulk_bytes a).length := by
      rw [hbl]; omega
    rw [e, ih (i + (bulk_bytes a).length) _ rest (by simpa using hv3)
      (fun b hb => hlen b (by simp [hb])) (by omega)]
    simp only [bulks_bytes, List.length_append, bulk_spans, append_args_cons, sprintf_d_nat,
      Nat.add_assoc]

theorem unconsumed_view (c : client) (x : List Nat) (hb : c.buf_idx + c.buf_len ≤ c.buf.length)
    (hu : unconsumed c = x) :
    x.length = c.buf_len ∧ ∃ post, c.buf.drop c.buf_idx = x ++ post := by
  subst hu
  refine ⟨?_, (c.buf.drop c.buf_idx).drop c.buf_len, ?_⟩
  · simp [unconsumed]; omega
  · simp [unconsumed]

theorem bulk_spans_values (buf : List Nat) : ∀ (args : List (List Nat)) (p : Nat)
    (rest : List Nat), buf.drop p = bulks_bytes args ++ rest →
    (bulk_spans p args).map (arg_bytes buf) = args := by
  intro args
  induction args with
  | nil => intro p rest _; rfl
  | cons a as ih =>
    intro p rest h
    have hv0 : buf.drop p = (36 :: (sprintf_d a.length ++ [13, 10])) ++
        (a ++ (13 :: 10 :: (bulks_bytes as ++ rest))) := by
      rw [h]; simp [bulks_bytes, bulk_bytes]
    have hv1 := drop_view_add hv0
    have hv2 : buf.drop p = bulk_bytes a ++ (bulks_bytes as ++ rest) := by
      rw [h]; simp [bulks_bytes]
    have hv3 := drop_view_add hv2
    simp only [bulk_spans, List.map_cons, ih _ rest hv3]
    congr 1
    simp only [arg_bytes]
    have e : p + 1 + (sprintf_d a.length).length + 2 =
        p + (36 :: (sprintf_d a.length ++ [13, 10])).length := by
      simp; omega
    rw [e, hv1, List.take_left]

theorem multibulk_request_length (args : List (List Nat)) :
    (multibulk_request args).length = 1 + (utoa args.length).length + 2 +
      (bulks_bytes args).length := by
  simp [multibulk_request, sprintf_d_nat]; omega

theorem bulks_bytes_pos (args : List (List Nat)) (h : args ≠ []) :
    0 < (bulks_bytes args).length := by
  cases args with
  | nil => exact absurd rfl h
  | cons a as => simp [bulks_bytes, bulk_bytes]

/-- The result of `client_parse_command` on a buffer whose unconsumed bytes start with a
well-formed request of at least one argument, in full. -/
theorem client_parse_command_request (c : client) (args : List (List Nat)) (t : List Nat)
    (hne : args ≠ []) (hcount : args.length < 2147483648)
    (hlen : ∀ a ∈ args, a.length < 2147483648)
    (hb : c.buf_idx + c.buf_len ≤ c.buf.length)
    (hu : unconsumed c = multibulk_request args ++ t) :
    client_parse_command c = (none,
      release (append_args { c with args := [] }
          (bulk_spans (c.buf_idx + 1 + (utoa args.length).length + 2) args))
        (c.buf_idx + (multibulk_request args).length)) := by
  obtain ⟨hl, post, hv⟩ := unconsumed_view c _ hb hu
  have hrl := multibulk_request_length args
  have hpos := bulks_bytes_pos args hne
  simp only [List.length_append] at hl
  have hv0 : c.buf.drop c.buf_idx = 42 :: (utoa args.length ++ 13 :: 10 ::
      (bulks_bytes args ++ (t ++ post))) := by
    rw [hv]; simp [multibulk_request, sprintf_d_nat]
  have h42 : c.buf.getD c.buf_idx 0 = 42 := by
    have := getD_of_view hv0 0; simpa using this
  have hv1 : c.buf.drop (c.buf_idx + 1) = utoa args.length ++ 13 :: 10 ::
      (bulks_bytes args ++ (t ++ post)) := by
    have := drop_view_add (l := [42]) (by simpa using hv0)
    simpa using this
  have hatoi : atoi (utoa args.length ++ 0 :: 10 :: (bulks_bytes args ++ (t ++ post)))
      = (args.length : Int) := atoi_utoa args.length hcount 0 (by decide) _
  have hscan := multibulk_count_loop_scan { c with args := [] } (c.buf_idx + 1)
    (utoa args.length) _ hv1 (utoa_no_lf _)
    (utoa args.length).length 0 (c.buf_idx + c.buf_len - (c.buf_idx + 1)) (by omega) (by omega)
  rw [hatoi] at hscan
  have hnpos : 0 < args.length := List.length_pos.mpr hne
  have hc1 : ¬ ((args.length : Int) ≤ 0 ∧
      ((args.length : Int) < 0 ∨ (utoa args.length).length + 1 ≠ 2)) := by
    rintro ⟨h0, _⟩; omega
  simp only [Nat.add_zero, hc1, if_false] at hscan
  have hv2 : c.buf.drop (c.buf_idx + 1 + (utoa args.length).length + 2) =
      bulks_bytes args ++ (t ++ post) := by
    have := drop_view_add (l := utoa args.length ++ [13, 10]) (by simpa using hv1)
    simpa [Nat.add_assoc] using this
  have hargs := multibulk_args_loop_ok (c.buf_idx + c.buf_len) args
    (c.buf_idx + 1 + (utoa args.length).length + 2) { c with args := [] } (t ++ post) hv2 hlen
    (by omega)
  unfold client_parse_command
  simp only [ge_iff_le, h42, ne_eq, not_true_eq_false, if_false, hscan, Int.toNat_ofNat, hargs]
  rw [if_neg (by omega), if_neg (by omega)]
  have e2 : c.buf_idx + 1 + (utoa args.length).length + 2 + (bulks_bytes args).length =
      c.buf_idx + (multibulk_request args).length := by omega
  rw [e2]

/-! ## The inline grammar, step by step -/

theorem telnet_quote_loop_lower (z b s : Nat) : ∀ (k i : Nat) (c : client) (i2 : Nat) (c2 : client),
    telnet_quote_loop z b s k i c = flow.next i2 c2 → i ≤ i2 + 1 := by
  intro k
  induction k with
  | zero =>
    intro i c i2 c2 h
    simp only [telnet_quote_loop, flow.next.injEq] at h
    omega
  | succ k ih =>
    intro i c i2 c2 h
    rw [telnet_quote_loop] at h
    split at h
    · split at h
      · simp only [flow.next.injEq] at h
        omega
      · cases h
    · have := ih (i + 1) c i2 c2 h
      omega

/-- Any fuel of at least `z - i` gives the same run of the outer loop. -/
theorem telnet_loop_fuel (z : Nat) : ∀ (f1 f2 i s : Nat) (first : Bool) (c : client),
    z - i ≤ f1 → z - i ≤ f2 → telnet_loop z f1 i s first c = telnet_loop z f2 i s first c := by
  intro f1
  induction f1 with
  | zero =>
    intro f2 i s first c h1 _
    cases f2 with
    | zero => rfl
    | succ f2 => rw [telnet_loop, telnet_loop, if_neg (by omega)]
  | succ f1 ih =>
    intro f2 i s first c h1 h2
    cases f2 with
    | zero => rw [telnet_loop, telnet_loop, if_neg (by omega)]
    | succ f2 =>
      rw [telnet_loop, telnet_loop]
      by_cases hz : i < z
      · simp only [hz, if_true]
        have hrec : ∀ (s2 : Nat) (first2 : Bool) (c2 : client),
            telnet_loop z f1 (i + 1) s2 first2 c2 = telnet_loop z f2 (i + 1) s2 first2 c2 :=
          fun s2 first2 c2 => ih f2 (i + 1) s2 first2 c2 (by omega) (by omega)
        simp only [hrec]
        split
        · split
          · rfl
          · cases hq : telnet_quote_loop z (c.buf.getD i 0) (i + 1) (z - (i + 1)) (i + 1) c with
            | ret e c2 => rfl
            | next i2 c2 =>
              have := telnet_quote_loop_lower _ _ _ _ _ _ _ _ hq
              exact ih f2 _ _ _ _ (by omega) (by omega)
        · rfl
      · simp only [hz, if_false]

/-- The start offset `s` is not read while `first` holds. -/
theorem telnet_loop_first_s (z : Nat) : ∀ (f i s s2 : Nat) (c : client),
    telnet_loop z f i s true c = telnet_loop z f i s2 true c := by
  intro f
  induction f with
  | zero => intro i s s2 c; rfl
  | succ f ih =>
    intro i s s2 c
    rw [telnet_loop, telnet_loop]
    simp only [Bool.not_true, Bool.false_eq_true, if_false, if_true]
    rw [ih (i + 1) s s2 c]

theorem telnet_step_char (z i s : Nat) (first : Bool) (c : client) (hz : i < z)
    (h1 : c.buf.getD i 0 ≠ 39) (h2 : c.buf.getD i 0 ≠ 34) (h3 : c.buf.getD i 0 ≠ 10)
    (h4 : c.buf.getD i 0 ≠ 32) :
    telnet_loop z (z - i) i s first c =
      telnet_loop z (z - (i + 1)) (i + 1) (if first then i else s) false c := by
  have e : z - i = (z - (i + 1)) + 1 := by omega
  rw [e, telnet_loop]
  simp only [hz, h1, h2, h3, h4, if_true, if_false, or_self]
  cases first <;> rfl

theorem telnet_step_space (z i s : Nat) (first : Bool) (c : client) (hz : i < z)
    (h : c.buf.getD i 0 = 32) :
    telnet_loop z (z - i) i s first c =
      telnet_loop z (z - (i + 1)) (i + 1) s true
        (if first then c else client_append_arg c s (i - s)) := by
  have e : z - i = (z - (i + 1)) + 1 := by omega
  rw [e, telnet_loop]
  simp only [hz, h, if_true]
  cases first <;> simp

theorem telnet_step_lf (z i s : Nat) (first : Bool) (c : client) (hz : i < z)
    (h : c.buf.getD i 0 = 10) :
    telnet_loop z (z - i) i s first c =
      (none, release (if first then c else
        client_append_arg c s ((if i > s ∧ c.buf.getD (i - 1) 0 = 13 then i - 1 else i) - s))
        (i + 1)) := by
  have e : z - i = (z - (i + 1)) + 1 := by omega
  rw [e, telnet_loop]
  simp only [hz, h, if_true]
  cases first <;> simp

theorem telnet_step_mid_quote (z i s : Nat) (c : client) (hz : i < z)
    (h : c.buf.getD i 0 = 39 ∨ c.buf.getD i 0 = 34) :
    telnet_loop z (z - i) i s false c = (some err_unbalanced, c) := by
  have e : z - i = (z - (i + 1)) + 1 := by omega
  rw [e, telnet_loop]
  simp only [hz, h, if_true]
  rfl

/-- The closing quote is found: `drop s = w ++ q :: rest` with no `q` in `w`. -/
theorem telnet_quote_loop_found (z q s : Nat) (c : client) (w rest : List Nat)
    (h : c.buf.drop s = w ++ q :: rest) (hq : q ∉ w) :
    ∀ (d j k : Nat), j + d = w.length → w.length + 1 ≤ j + k →
      telnet_quote_loop z q s k (s + j) c =
        (if s + w.length + 1 ≥ z ∨ c.buf.getD (s + w.length + 1) 0 = 32 ∨
            c.buf.getD (s + w.length + 1) 0 = 13 ∨ c.buf.getD (s + w.length + 1) 0 = 10
         then flow.next (s + w.length - 1) (client_append_arg c s w.length)
         else flow.ret (some err_unbalanced) c) := by
  intro d
  induction d with
  | zero =>
    intro j k hj hk
    have hj' : j = w.length := by omega
    subst hj'
    obtain ⟨k1, rfl⟩ : ∃ k1, k = k1 + 1 := ⟨k - 1, by omega⟩
    have hb : c.buf.getD (s + w.length) 0 = q := by
      rw [getD_of_view h]
      have := getD_append_add w (q :: rest) 0
      simpa using this
    rw [telnet_quote_loop, if_pos hb]
    have e1 : s + w.length - s = w.length := by omega
    rw [e1]
  | succ d ih =>
    intro j k hj hk
    obtain ⟨k1, rfl⟩ : ∃ k1, k = k1 + 1 := ⟨k - 1, by omega⟩
    have hb : c.buf.getD (s + j) 0 ≠ q := by
      rw [getD_of_view h, getD_append_lt _ _ _ (by omega)]
      intro h10
      exact hq (h10 ▸ getD_mem w j (by omega))
    rw [telnet_quote_loop, if_neg hb]
    exact ih (j + 1) k1 (by omega) (by omega)

/-- No closing quote in `[i, i + k)`: the loop ends at `i + k`. -/
theorem telnet_quote_loop_open (z q s : Nat) (c : client) : ∀ (k i : Nat),
    (∀ j, j < k → c.buf.getD (i + j) 0 ≠ q) →
    telnet_quote_loop z q s k i c = flow.next (i + k) c := by
  intro k
  induction k with
  | zero => intro i _; rfl
  | succ k ih =>
    intro i h
    rw [telnet_quote_loop, if_neg (by simpa using h 0 (by omega))]
    rw [ih (i + 1) (fun j hj => by
      have := h (j + 1) (by omega)
      rwa [Nat.add_assoc, Nat.add_comm 1 j])]
    congr 1
    omega

/-- A quoted token at a token start whose closing quote is followed by a delimiter. -/
theorem telnet_step_quoted (z i s : Nat) (c : client) (q : Nat) (w rest : List Nat)
    (hq : q = 39 ∨ q = 34) (hqw : q ∉ w) (h : c.buf.drop i = q :: (w ++ q :: rest))
    (hz : i + w.length + 1 < z)
    (hd : i + w.length + 2 ≥ z ∨ c.buf.getD (i + w.length + 2) 0 = 32 ∨
      c.buf.getD (i + w.length + 2) 0 = 13 ∨ c.buf.getD (i + w.length + 2) 0 = 10) :
    telnet_loop z (z - i) i s true c =
      telnet_loop z (z - (i + w.length + 2)) (i + w.length + 2) s true
        (client_append_arg c (i + 1) w.length) := by
  have e : z - i = (z - (i + 1)) + 1 := by omega
  have hb : c.buf.getD i 0 = q := by
    have := getD_of_view h 0; simpa using this
  have hv1 : c.buf.drop (i + 1) = w ++ q :: rest := by
    have := drop_view_add (l := [q]) (by simpa using h)
    simpa using this
  have hfound := telnet_quote_loop_found z q (i + 1) c w rest hv1 hqw w.length 0
    (z - (i + 1)) (by omega) (by omega)
  have e2 : i + 1 + w.length + 1 = i + w.length + 2 := by omega
  rw [e2, if_pos hd] at hfound
  rw [e, telnet_loop]
  simp only [hb, hz]
  rw [if_pos (by omega), if_pos (by rcases hq with h | h <;> simp [h])]
  simp only [Bool.not_true, Bool.false_eq_true, if_false, Nat.add_zero] at hfound ⊢
  rw [hfound]
  simp only
  have e3 : i + 1 + w.length - 1 + 1 + 1 = i + w.length + 2 := by omega
  rw [e3, telnet_loop_first_s z _ _ (i + 1) s]
  exact telnet_loop_fuel z _ _ _ _ _ _ (by omega) (by omega)

/-- A quoted token at a token start whose closing quote is followed by another byte. -/
theorem telnet_step_quoted_bad (z i s : Nat) (c : client) (q : Nat) (w rest : List Nat)
    (hq : q = 39 ∨ q = 34) (hqw : q ∉ w) (h : c.buf.drop i = q :: (w ++ q :: rest))
    (hz : i + w.length + 2 < z)
    (hd : c.buf.getD (i + w.length + 2) 0 ≠ 32 ∧
      c.buf.getD (i + w.length + 2) 0 ≠ 13 ∧ c.buf.getD (i + w.length + 2) 0 ≠ 10) :
    telnet_loop z (z - i) i s true c = (some err_unbalanced, c) := by
  have e : z - i = (z - (i + 1)) + 1 := by omega
  have hb : c.buf.getD i 0 = q := by
    have := getD_of_view h 0; simpa using this
  have hv1 : c.buf.drop (i + 1) = w ++ q :: rest := by
    have := drop_view_add (l := [q]) (by simpa using h)
    simpa using this
  have hfound := telnet_quote_loop_found z q (i + 1) c w rest hv1 hqw w.length 0
    (z - (i + 1)) (by omega) (by omega)
  have e2 : i + 1 + w.length + 1 = i + w.length + 2 := by omega
  rw [e2, if_neg (by omega)] at hfound
  rw [e, telnet_loop]
  simp only [hb]
  rw [if_pos (by omega), if_pos (by rcases hq with h | h <;> simp [h])]
  simp only [Bool.not_true, Bool.false_eq_true, if_false, Nat.add_zero] at hfound ⊢
  rw [hfound]

/-- A quote at a token start with no closing quote before `z`. -/
theorem telnet_step_quoted_open (z i s : Nat) (c : client) (hz : i < z)
    (hq : c.buf.getD i 0 = 39 ∨ c.buf.getD i 0 = 34)
    (hopen : ∀ j, i + 1 + j < z → c.buf.getD (i + 1 + j) 0 ≠ c.buf.getD i 0) :
    telnet_loop z (z - i) i s true c = (some err_incomplete, c) := by
  have e : z - i = (z - (i + 1)) + 1 := by omega
  have hl := telnet_quote_loop_open z (c.buf.getD i 0) (i + 1) c (z - (i + 1)) (i + 1)
    (fun j hj => hopen j (by omega))
  rw [e, telnet_loop]
  rw [if_pos hz, if_pos hq]
  simp only [Bool.not_true, Bool.false_eq_true, if_false]
  rw [hl]
  simp only
  cases hf : z - (i + 1) with
  | zero => rfl
  | succ f => rw [telnet_loop, if_neg (by omega)]

/-- A run of bytes of a bare word after its first byte. -/
theorem telnet_run_bare (z s : Nat) (c : client) : ∀ (w : List Nat) (i : Nat) (rest : List Nat),
    c.buf.drop i = w ++ rest → (∀ b ∈ w, bare_byte b) → i + w.length ≤ z →
    telnet_loop z (z - i) i s false c =
      telnet_loop z (z - (i + w.length)) (i + w.length) s false c := by
  intro w
  induction w with
  | nil => intro i rest _ _ _; rfl
  | cons a w ih =>
    intro i rest h hw hz
    have hb : c.buf.getD i 0 = a := by
      have := getD_of_view h 0; simpa using this
    have ha : bare_byte a := hw a (by simp)
    obtain ⟨a1, a2, a3, _, a5⟩ := ha
    have hv1 : c.buf.drop (i + 1) = w ++ rest := by
      have := drop_view_add (l := [a]) (by simpa using h)
      simpa using this
    simp only [List.length_cons] at hz
    rw [telnet_step_char z i s false c (by omega) (by rw [hb]; exact a2) (by rw [hb]; exact a3)
      (by rw [hb]; exact a5) (by rw [hb]; exact a1)]
    simp only [Bool.false_eq_true, if_false]
    rw [ih (i + 1) rest hv1 (fun b hb => hw b (by simp [hb])) (by omega)]
    simp only [List.length_cons]
    have e : i + 1 + w.length = i + (w.length + 1) := by omega
    rw [e]

/-- A run of spaces between tokens. -/
theorem telnet_run_spaces (z s : Nat) (c : client) : ∀ (n i : Nat) (rest : List Nat),
    c.buf.drop i = List.replicate n 32 ++ rest → i + n ≤ z →
    telnet_loop z (z - i) i s true c = telnet_loop z (z - (i + n)) (i + n) s true c := by
  intro n
  induction n with
  | zero => intro i rest _ _; rfl
  | succ n ih =>
    intro i rest h hz
    have hb : c.buf.getD i 0 = 32 := by
      have := getD_of_view h 0; simpa [List.replicate_succ] using this
    have hv1 : c.buf.drop (i + 1) = List.replicate n 32 ++ rest := by
      have := drop_view_add (l := [32]) (by simpa [List.replicate_succ] using h)
      simpa using this
    rw [telnet_step_space z i s true c (by omega) hb]
    simp only [if_true]
    rw [ih (i + 1) rest hv1 (by omega)]
    have e : i + 1 + n = i + (n + 1) := by omega
    rw [e]

/-- The whole of a bare word read from a token start: the loop stands after the
word with `s` at its first byte. -/
theorem telnet_bare_word (z s i : Nat) (c : client) (w rest : List Nat)
    (hne : w ≠ []) (hw : ∀ b ∈ w, bare_byte b) (h : c.buf.drop i = w ++ rest)
    (hz : i + w.length ≤ z) :
    telnet_loop z (z - i) i s true c =
      telnet_loop z (z - (i + w.length)) (i + w.length) i false c := by
  obtain ⟨a, w1, rfl⟩ := List.exists_cons_of_ne_nil hne
  have hb : c.buf.getD i 0 = a := by
    have := getD_of_view h 0; simpa using this
  obtain ⟨a1, a2, a3, _, a5⟩ := hw a (by simp)
  have hv1 : c.buf.drop (i + 1) = w1 ++ rest := by
    have := drop_view_add (l := [a]) (by simpa using h)
    simpa using this
  simp only [List.length_cons] at hz ⊢
  rw [telnet_step_char z i s true c (by omega) (by rw [hb]; exact a2) (by rw [hb]; exact a3)
      (by rw [hb]; exact a5) (by rw [hb]; exact a1)]
  simp only [if_true]
  rw [telnet_run_bare z i c w1 (i + 1) rest hv1 (fun b hb => hw b (by simp [hb])) (by omega)]
  have e : i + 1 + w1.length = i + (w1.length + 1) := by omega
  rw [e]

/-- A well-formed token followed by a space: its argument is appended and the
loop stands after the space, at a token start. -/
theorem telnet_token_space (z s i : Nat) (c : client) (t : token) (rest : List Nat)
    (hwf : t.wf) (h : c.buf.drop i = t.render ++ 32 :: rest)
    (hz : i + t.render.length < z) :
    telnet_loop z (z - i) i s true c =
      telnet_loop z (z - (i + t.render.length + 1)) (i + t.render.length + 1) s true
        (client_append_arg c (t.span i).1 (t.span i).2) := by
  cases t with
  | bare w =>
    obtain ⟨hne, hw⟩ := hwf
    simp only [token.render, token.span] at h hz ⊢
    have hsp : c.buf.getD (i + w.length) 0 = 32 := by
      rw [getD_of_view h]
      have := getD_append_add w (32 :: rest) 0
      simpa using this
    rw [telnet_bare_word z s i c w _ hne hw h (by omega),
      telnet_step_space z _ i false c (by omega) hsp]
    simp only [Bool.false_eq_true, if_false]
    have e : i + w.length - i = w.length := by omega
    rw [e]
    exact telnet_loop_first_s z _ _ _ _ _
  | quoted q w =>
    obtain ⟨hq, hqw⟩ := hwf
    have hrl : (token.quoted q w).render.length = w.length + 2 := by simp [token.render]
    rw [hrl] at hz ⊢
    simp only [token.render, token.span] at h ⊢
    have hv : c.buf.drop i = q :: (w ++ q :: 32 :: rest) := by rw [h]; simp
    have hsp : c.buf.getD (i + w.length + 2) 0 = 32 := by
      have e : i + w.length + 2 = i + (q :: (w ++ [q])).length := by simp; omega
      rw [e, getD_of_view h]
      have := getD_append_add (q :: (w ++ [q])) (32 :: rest) 0
      simpa using this
    rw [telnet_step_quoted z i s c q w _ hq hqw hv (by omega) (Or.inr (Or.inl hsp)),
      telnet_step_space z _ s true _ (by omega) (by simpa using hsp)]
    simp only [if_true]
    rfl

/-- A well-formed token followed by `\n`: its argument is appended, the line is
released and the parser returns success. -/
theorem telnet_token_lf (z s i : Nat) (c : client) (t : token) (rest : List Nat)
    (hwf : t.wf) (h : c.buf.drop i = t.render ++ 10 :: rest)
    (hz : i + t.render.length < z) :
    telnet_loop z (z - i) i s true c =
      (none, release (client_append_arg c (t.span i).1 (t.span i).2)
        (i + t.render.length + 1)) := by
  cases t with
  | bare w =>
    obtain ⟨hne, hw⟩ := hwf
    simp only [token.render, token.span] at h hz ⊢
    have hlf : c.buf.getD (i + w.length) 0 = 10 := by
      rw [getD_of_view h]
      have := getD_append_add w (10 :: rest) 0
      simpa using this
    have hlen : 0 < w.length := List.length_pos.mpr hne
    have hlast : c.buf.getD (i + w.length - 1) 0 ≠ 13 := by
      have e : i + w.length - 1 = i + (w.length - 1) := by omega
      rw [e, getD_of_view h, getD_append_lt _ _ _ (by omega)]
      have hm := getD_mem w (w.length - 1) (by omega)
      exact (hw _ hm).2.2.2.1
    rw [telnet_bare_word z s i c w _ hne hw h (by omega),
      telnet_step_lf z _ i false c (by omega) hlf]
    simp only [Bool.false_eq_true, if_false, hlast, and_false]
    have e : i + w.length - i = w.length := by omega
    rw [e]
  | quoted q w =>
    obtain ⟨hq, hqw⟩ := hwf
    have hrl : (token.quoted q w).render.length = w.length + 2 := by simp [token.render]
    rw [hrl] at hz ⊢
    simp only [token.render, token.span] at h ⊢
    have hv : c.buf.drop i = q :: (w ++ q :: 10 :: rest) := by rw [h]; simp
    have hlf : c.buf.getD (i + w.length + 2) 0 = 10 := by
      have e : i + w.length + 2 = i + (q :: (w ++ [q])).length := by simp; omega
      rw [e, getD_of_view h]
      have := getD_append_add (q :: (w ++ [q])) (10 :: rest) 0
      simpa using this
    rw [telnet_step_quoted z i s c q w _ hq hqw hv (by omega) (Or.inr (Or.inr (Or.inr hlf))),
      telnet_step_lf z _ s true _ (by omega) (by simpa using hlf)]
    simp only [if_true]
    rfl

theorem inline_tokens_cons_length (t : token) (n : Nat) (ts : List (token × Nat)) :
    (inline_tokens ((t, n) :: ts)).length =
      t.render.length + 1 + n + (inline_tokens ts).length := by
  simp [inline_tokens]; omega

/-- Tokens followed by spaces, read from a token start: their arguments are
appended in order and the loop stands after them, at a token start. -/
theorem telnet_tokens (z s : Nat) : ∀ (pre : List (token × Nat)) (i : Nat) (c : client)
    (rest : List Nat), (∀ p ∈ pre, p.1.wf) → c.buf.drop i = inline_tokens pre ++ rest →
    i + (inline_tokens pre).length ≤ z →
    telnet_loop z (z - i) i s true c =
      telnet_loop z (z - (i + (inline_tokens pre).length)) (i + (inline_tokens pre).length)
        s true (append_args c (inline_spans i pre)) := by
  intro pre
  induction pre with
  | nil => intro i c rest _ _ _; rfl
  | cons p ts ih =>
    obtain ⟨t, n⟩ := p
    intro i c rest hwf h hz
    have hl := inline_tokens_cons_length t n ts
    rw [hl] at hz
    have hv0 : c.buf.drop i = t.render ++ 32 :: (List.replicate n 32 ++
        (inline_tokens ts ++ rest)) := by
      rw [h]; simp [inline_tokens]
    have hv1 : c.buf.drop (i + t.render.length + 1) = List.replicate n 32 ++
        (inline_tokens ts ++ rest) := by
      have := drop_view_add (l := t.render ++ [32]) (by simpa using hv0)
      simpa [Nat.add_assoc] using this
    have hv2 : c.buf.drop (i + t.render.length + 1 + n) = inline_tokens ts ++ rest := by
      have := drop_view_add hv1
      simpa using this
    rw [telnet_token_space z s i c t _ (hwf (t, n) (by simp)) hv0 (by omega),
      telnet_run_spaces z s _ n _ _ (by simpa using hv1) (by omega),
      ih _ _ rest (fun p hp => hwf p (by simp [hp])) (by simpa using hv2) (by omega)]
    have e : i + t.render.length + 1 + n + (inline_tokens ts).length =
        i + (inline_tokens ((t, n) :: ts)).length := by rw [hl]; omega
    rw [e]
    rfl

/-! ## The inline grammar on well-formed lines -/

@[simp] theorem release_buf (c : client) (i : Nat) : (release c i).buf = c.buf := by
  unfold release; simp only; split <;> rfl
@[simp] theorem release_args (c : client) (i : Nat) : (release c i).args = c.args := by
  unfold release; simp only; split <;> rfl
@[simp] theorem release_buf_len (c : client) (i : Nat) :
    (release c i).buf_len = c.buf_len - (i - c.buf_idx) := by
  unfold release; simp only; split <;> rfl
theorem release_buf_idx (c : client) (i : Nat) :
    (release c i).buf_idx = if c.buf_len - (i - c.buf_idx) = 0 then 0 else i := by
  unfold release; simp only; split <;> rfl

/-- What `release` leaves when the unconsumed bytes are `x ++ t` and `x` is released. -/
theorem release_view (c : client) (x t post : List Nat)
    (hv : c.buf.drop c.buf_idx = x ++ (t ++ post)) (hl : c.buf_len = x.length + t.length) :
    unconsumed (release c (c.buf_idx + x.length)) = t ∧
    (release c (c.buf_idx + x.length)).buf_len = t.length ∧
    (t ≠ [] → (release c (c.buf_idx + x.length)).buf_idx = c.buf_idx + x.length) ∧
    (t = [] → (release c (c.buf_idx + x.length)).buf_idx = 0) := by
  have e : c.buf_len - (c.buf_idx + x.length - c.buf_idx) = t.length := by omega
  have hlen : (release c (c.buf_idx + x.length)).buf_len = t.length := by
    rw [release_buf_len, e]
  have hidx := release_buf_idx c (c.buf_idx + x.length)
  rw [e] at hidx
  refine ⟨?_, hlen, ?_, ?_⟩
  · unfold unconsumed
    rw [hlen, release_buf, hidx]
    by_cases ht : t = []
    · subst ht; simp
    · have : t.length ≠ 0 := fun h => ht (List.length_eq_zero.mp h)
      rw [if_neg this, drop_view_add hv, List.take_left]
  · intro ht
    have : t.length ≠ 0 := fun h => ht (List.length_eq_zero.mp h)
    rw [hidx, if_neg this]
  · intro ht
    subst ht
    rw [hidx]; simp

theorem token_span_value (buf : List Nat) (i : Nat) (t : token) (rest : List Nat)
    (h : buf.drop i = t.render ++ rest) : arg_bytes buf (t.span i) = t.value := by
  cases t with
  | bare w =>
    simp only [token.render] at h
    simp only [arg_bytes, token.span, token.value, h, List.take_left]
  | quoted q w =>
    simp only [token.render] at h
    have hv1 : buf.drop (i + 1) = w ++ (q :: rest) := by
      have := drop_view_add (l := [q]) (by simpa using h)
      simpa using this
    simp only [arg_bytes, token.span, token.value, hv1, List.take_left]

theorem inline_spans_values (buf : List Nat) : ∀ (pre : List (token × Nat)) (i : Nat)
    (rest : List Nat), buf.drop i = inline_tokens pre ++ rest →
    (inline_spans i pre).map (arg_bytes buf) = pre.map (fun p => p.1.value) := by
  intro pre
  induction pre with
  | nil => intro i rest _; rfl
  | cons p ts ih =>
    obtain ⟨t, n⟩ := p
    intro i rest h
    have hv0 : buf.drop i = t.render ++ (32 :: (List.replicate n 32 ++
        (inline_tokens ts ++ rest))) := by
      rw [h]; simp [inline_tokens]
    have hv2 : buf.drop (i + t.render.length + 1 + n) = inline_tokens ts ++ rest := by
      have := drop_view_add (l := t.render ++ 32 :: List.replicate n 32) (by simpa using hv0)
      have e : i + t.render.length + 1 + n = i + (t.render ++ 32 :: List.replicate n 32).length := by
        simp; omega
      rw [e]; exact this
    simp only [inline_spans, List.map_cons, token_span_value buf i t _ hv0, ih _ rest hv2]

/-- The inline parser on a line of well-formed tokens, in full. -/
theorem client_parse_telnet_command_line (c : client) (pre : List (token × Nat)) (last : token)
    (t : List Nat) (hwf : ∀ p ∈ pre, p.1.wf) (hlast : last.wf)
    (hb : c.buf_idx + c.buf_len ≤ c.buf.length)
    (hu : unconsumed c = inline_line pre last ++ t) :
    client_parse_telnet_command c = (none,
      release (append_args { c with args := [] }
          (inline_spans c.buf_idx pre ++ [last.span (c.buf_idx + (inline_tokens pre).length)]))
        (c.buf_idx + (inline_line pre last).length)) := by
  obtain ⟨hl, post, hv⟩ := unconsumed_view c _ hb hu
  have hll : (inline_line pre last).length = (inline_tokens pre).length + last.render.length + 1
      := by simp [inline_line]; omega
  simp only [List.length_append] at hl
  have hv0 : c.buf.drop c.buf_idx = inline_tokens pre ++ (last.render ++ 10 :: (t ++ post)) := by
    rw [hv]; simp [inline_line]
  have hv1 := drop_view_add hv0
  unfold client_parse_telnet_command
  simp only
  rw [if_neg (by omega)]
  rw [telnet_tokens (c.buf_len + c.buf_idx) c.buf_idx pre c.buf_idx { c with args := [] } _ hwf
    hv0 (by omega)]
  rw [telnet_token_lf (c.buf_len + c.buf_idx) c.buf_idx _ _ last (t ++ post) hlast
    (by simpa using hv1) (by omega)]
  rw [append_args_append, hll]
  simp only [append_args_cons, append_args_nil, Nat.add_assoc]

theorem strtol_digits_nul (r : List Nat) : ∀ (t : List Nat) (acc : Nat),
    strtol_digits (t ++ 0 :: r) acc = strtol_digits (t ++ [0]) acc := by
  intro t
  induction t with
  | nil => intro acc; simp [strtol_digits, isdigit]
  | cons a t ih =>
    intro acc
    simp only [List.cons_append, strtol_digits]
    split
    · exact ih _
    · rfl

theorem dropWhile_isspace_nul (r : List Nat) : ∀ (t : List Nat),
    (t ++ 0 :: r).dropWhile isspace = t.dropWhile isspace ++ 0 :: r := by
  intro t
  induction t with
  | nil => simp [List.dropWhile, isspace]
  | cons a t ih =>
    simp only [List.cons_append, List.dropWhile]
    split
    · exact ih
    · rfl

/-- The function `atoi` does not read past the NUL. -/
theorem atoi_nul (t r : List Nat) : atoi (t ++ 0 :: r) = atoi (t ++ [0]) := by
  unfold atoi strtol
  simp only [dropWhile_isspace_nul]
  cases h : t.dropWhile isspace with
  | nil => simp [strtol_digits, isdigit]
  | cons a u =>
    simp only [List.cons_append, List.head?_cons, List.tail_cons, Option.some.injEq]
    rw [strtol_digits_nul r u 0]
    have := strtol_digits_nul r (a :: u) 0
    simp only [List.cons_append] at this
    rw [this]

/-- A buffer that does not start with `*` goes to the inline grammar. -/
theorem client_parse_command_inline (c : client) (hlen : 0 < c.buf_len)
    (h : c.buf.getD c.buf_idx 0 ≠ 42) :
    client_parse_command c = client_parse_telnet_command c := by
  unfold client_parse_command client_parse_telnet_command
  simp only [ge_iff_le, h, ne_eq, not_false_eq_true, if_true]
  rw [if_neg (by omega), if_neg (by omega), if_neg (by omega)]

theorem unconsumed_head (c : client) (x : List Nat) (hb : c.buf_idx + c.buf_len ≤ c.buf.length)
    (hu : unconsumed c = x) (hx : x ≠ []) :
    0 < c.buf_len ∧ c.buf.getD c.buf_idx 0 = x.getD 0 0 := by
  obtain ⟨hl, post, hv⟩ := unconsumed_view c x hb hu
  have := List.length_pos.mpr hx
  refine ⟨by omega, ?_⟩
  have h0 := getD_of_view hv 0
  rw [Nat.add_zero] at h0
  rw [h0, getD_append_lt _ _ _ this]

/-! ## The output buffer -/

theorem take_succ_set (dst : List Nat) (off a : Nat) (h : off < dst.length) :
    (dst.set off a).take (off + 1) = dst.take off ++ [a] := by
  apply List.ext_getElem?
  intro i
  rw [List.getElem?_take]
  by_cases h1 : i < off
  · rw [if_pos (by omega), List.getElem?_set_ne (by omega),
      List.getElem?_append_left (by simp; omega), List.getElem?_take, if_pos h1]
  · by_cases h2 : i = off
    · subst h2
      rw [if_pos (by omega), List.getElem?_set_self h,
        List.getElem?_append_right (by simp)]
      simp [Nat.min_eq_left (Nat.le_of_lt h)]
    · rw [if_neg (by omega), List.getElem?_append_right (by simp; omega)]
      simp [Nat.min_eq_left (Nat.le_of_lt h)]
      omega

/-- The function `memcpy` inside the bounds of both regions. -/
theorem memcpy_eq : ∀ (n : Nat) (dst : List Nat) (off : Nat) (src : List Nat),
    off + n ≤ dst.length → n ≤ src.length →
    memcpy dst off src n = dst.take off ++ src.take n ++ dst.drop (off + n) := by
  intro n
  induction n with
  | zero => intro dst off src _ _; simp [memcpy]
  | succ n ih =>
    intro dst off src hd hs
    cases src with
    | nil => simp at hs
    | cons a src =>
      simp only [List.length_cons] at hs
      rw [memcpy, ih _ _ _ (by simp; omega) (by simpa using hs)]
      simp only [List.getD_cons_zero, List.tail_cons, List.take_succ_cons]
      rw [take_succ_set dst off a (by omega), List.drop_set_of_lt a dst (by omega)]
      have e : off + 1 + n = off + (n + 1) := by omega
      rw [e]
      simp

theorem output_cap_loop_ge (siz : Nat) : ∀ (fuel cap : Nat), siz ≤ cap + fuel →
    siz ≤ output_cap_loop siz fuel cap ∧ cap ≤ output_cap_loop siz fuel cap := by
  intro fuel
  induction fuel with
  | zero => intro cap h; simp only [output_cap_loop]; omega
  | succ fuel ih =>
    intro cap h
    rw [output_cap_loop]
    split
    · have := ih (if cap = 0 then 1 else cap * 2) (by split <;> omega)
      refine ⟨this.1, ?_⟩
      have h2 : cap ≤ (if cap = 0 then 1 else cap * 2) := by split <;> omega
      omega
    · omega

theorem realloc_length (p : List Nat) (cap : Nat) (h : p.length ≤ cap) :
    (realloc p cap).length = cap := by
  simp [realloc]; omega

theorem realloc_take (p : List Nat) (cap n : Nat) (h : p.length ≤ cap) (hn : n ≤ p.length) :
    (realloc p cap).take n = p.take n := by
  simp only [realloc, List.take_of_length_le h]
  rw [List.take_append_of_le_length hn]

theorem client_new_output_ok : output_ok client_new := by
  simp [output_ok, client_new]

theorem client_output_require_ok (c : client) (siz : Nat) (h : output_ok c) :
    output_ok (client_output_require c siz) ∧ siz ≤ (client_output_require c siz).output_cap ∧
    (client_output_require c siz).output_len = c.output_len ∧
    (client_output_require c siz).output.take c.output_len = c.output.take c.output_len := by
  obtain ⟨h1, h2⟩ := h
  unfold client_output_require
  split
  · have hg := output_cap_loop_ge siz (siz + 1) c.output_cap (by omega)
    refine ⟨⟨?_, ?_⟩, ?_, rfl, ?_⟩
    · exact realloc_length _ _ (by omega)
    · show c.output_len ≤ output_cap_loop siz (siz + 1) c.output_cap
      omega
    · exact hg.1
    · exact realloc_take _ _ _ (by omega) (by omega)
  · exact ⟨⟨h1, h2⟩, by omega, rfl, rfl⟩

/-- The function `client_write` appends the first `n` bytes of `data` to the pending output. -/
theorem client_write_raw (c : client) (data : List Nat) (n : Nat) (h : output_ok c)
    (hn : n ≤ data.length) :
    output_ok (client_write c data n) ∧
    client_raw_bytes (client_write c data n) = client_raw_bytes c ++ data.take n ∧
    (client_write c data n).output_len = c.output_len + n := by
  obtain ⟨⟨r1, r2⟩, r3, r4, r5⟩ := client_output_require_ok c (c.output_len + n) h
  have hm := memcpy_eq n (client_output_require c (c.output_len + n)).output c.output_len data
    (by omega) hn
  have ho : (client_write c data n).output =
      memcpy (client_output_require c (c.output_len + n)).output c.output_len data n := by
    show memcpy _ (client_output_require c (c.output_len + n)).output_len data n = _
    rw [r4]
  have hl : (client_write c data n).output_len = c.output_len + n := by
    show (client_output_require c (c.output_len + n)).output_len + n = _
    rw [r4]
  have hc : (client_write c data n).output_cap =
      (client_output_require c (c.output_len + n)).output_cap := rfl
  refine ⟨⟨?_, ?_⟩, ?_, hl⟩
  · rw [ho, hm, hc]
    simp only [List.length_append, List.length_take, List.length_drop]
    omega
  · rw [hl, hc]; exact r3
  · unfold client_raw_bytes
    rw [ho, hl, hm, List.append_assoc, ← List.append_assoc,
      List.take_left' (by simp; omega), r5]

/-- The function `client_write_byte` appends one byte to the pending output. -/
theorem client_write_byte_raw (c : client) (b : Nat) (h : output_ok c) :
    output_ok (client_write_byte c b) ∧
    client_raw_bytes (client_write_byte c b) = client_raw_bytes c ++ [b] ∧
    (client_write_byte c b).output_len = c.output_len + 1 := by
  obtain ⟨⟨r1, r2⟩, r3, r4, r5⟩ := client_output_require_ok c (c.output_len + 1) h
  have ho : (client_write_byte c b).output =
      (client_output_require c (c.output_len + 1)).output.set c.output_len b := by
    show List.set _ (client_output_require c (c.output_len + 1)).output_len b = _
    rw [r4]
  have hl : (client_write_byte c b).output_len = c.output_len + 1 := by
    show (client_output_require c (c.output_len + 1)).output_len + 1 = _
    rw [r4]
  have hc : (client_write_byte c b).output_cap =
      (client_output_require c (c.output_len + 1)).output_cap := rfl
  refine ⟨⟨?_, ?_⟩, ?_, hl⟩
  · rw [ho, hc, List.length_set]; exact r1
  · rw [hl, hc]; exact r3
  · unfold client_raw_bytes
    rw [ho, hl, take_succ_set _ _ _ (by omega), r5]

/-- The function `client_write_bulk` appends `$<n>\r\n<n bytes>\r\n`. -/
theorem client_write_bulk_raw (c : client) (a : List Nat) (h : output_ok c) :
    output_ok (client_write_bulk c a a.length) ∧
    client_raw_bytes (client_write_bulk c a a.length) = client_raw_bytes c ++ bulk_bytes a ∧
    (client_write_bulk c a a.length).output_len = c.output_len + (bulk_bytes a).length := by
  unfold client_write_bulk
  simp only
  obtain ⟨k1, e1, l1⟩ := client_write_raw c (36 :: (sprintf_d a.length ++ [13, 10])) _ h
    (Nat.le_refl _)
  obtain ⟨k2, e2, l2⟩ := client_write_raw _ a a.length k1 (Nat.le_refl _)
  obtain ⟨k3, e3, l3⟩ := client_write_byte_raw _ 13 k2
  obtain ⟨k4, e4, l4⟩ := client_write_byte_raw _ 10 k3
  rw [List.take_length] at e1 e2
  refine ⟨k4, ?_, ?_⟩
  · rw [e4, e3, e2, e1]
    simp [bulk_bytes]
  · rw [l4, l3, l2, l1]
    simp [bulk_bytes]
    omega

theorem client_write_bulks_raw : ∀ (args : List (List Nat)) (c : client), output_ok c →
    output_ok (args.foldl (fun c a => client_write_bulk c a a.length) c) ∧
    client_raw_bytes (args.foldl (fun c a => client_write_bulk c a a.length) c) =
      client_raw_bytes c ++ bulks_bytes args := by
  intro args
  induction args with
  | nil => intro c h; simp [bulks_bytes, h]
  | cons a as ih =>
    intro c h
    obtain ⟨k1, e1, _⟩ := client_write_bulk_raw c a h
    obtain ⟨k2, e2⟩ := ih _ k1
    simp only [List.foldl_cons]
    exact ⟨k2, by rw [e2, e1]; simp [bulks_bytes]⟩

/-- The encoder writes `multibulk_request args` for the argument vector `args`. -/
theorem client_write_request_raw (c : client) (args : List (List Nat)) (h : output_ok c) :
    client_raw_bytes (client_write_request c args) =
      client_raw_bytes c ++ multibulk_request args := by
  unfold client_write_request client_write_multibulk
  simp only
  obtain ⟨k1, e1, _⟩ := client_write_raw c (42 :: (sprintf_d args.length ++ [13, 10])) _ h
    (Nat.le_refl _)
  obtain ⟨_, e2⟩ := client_write_bulks_raw args _ k1
  rw [List.take_length] at e1
  rw [e2, e1]
  simp [multibulk_request]


/-- The arguments `client_parse_command` extracts from a well-formed request are
the arguments the request carries. -/
theorem client_parse_command_request_values (c : client) (args : List (List Nat))
    (t : List Nat) (hne : args ≠ []) (hcount : args.length < 2147483648)
    (hlen : ∀ a ∈ args, a.length < 2147483648)
    (hb : c.buf_idx + c.buf_len ≤ c.buf.length)
    (hu : unconsumed c = multibulk_request args ++ t) :
    client_arg_values c.buf (client_parse_command c).2 = args := by
  obtain ⟨_, post, hv⟩ := unconsumed_view c _ hb hu
  rw [client_parse_command_request c args t hne hcount hlen hb hu]
  have hv' : c.buf.drop c.buf_idx = multibulk_request args ++ (t ++ post) := by
    rw [hv]; simp
  simp only [client_arg_values, release_args, append_args_args, List.nil_append]
  have hv2 : c.buf.drop (c.buf_idx + 1 + (utoa args.length).length + 2) =
      bulks_bytes args ++ (t ++ post) := by
    have := drop_view_add (l := 42 :: (utoa args.length ++ [13, 10]))
      (r := bulks_bytes args ++ (t ++ post))
      (by rw [hv']; simp [multibulk_request, sprintf_d_nat])
    have e : c.buf_idx + 1 + (utoa args.length).length + 2 =
        c.buf_idx + (42 :: (utoa args.length ++ [13, 10])).length := by simp; omega
    rw [e]; exact this
  exact bulk_spans_values c.buf args _ _ hv2

/-- The round trip for an argument vector of at least one element: written with
the encoder and parsed from a buffer that holds exactly these bytes, it comes
back with the same count and the same bytes per element. -/
theorem roundtrip_of_nonempty_vector (args : List (List Nat)) (hne : args ≠ [])
    (hcount : args.length < 2147483648) (hlen : ∀ a ∈ args, a.length < 2147483648) :
    (client_parse_command
      (client_with_input [] (client_raw_bytes (client_write_request client_new args)) [])).1
      = none ∧
    client_arg_values (client_raw_bytes (client_write_request client_new args))
      (client_parse_command
        (client_with_input [] (client_raw_bytes (client_write_request client_new args)) [])).2
      = args := by
  have hraw : client_raw_bytes (client_write_request client_new args) = multibulk_request args
      := by
    rw [client_write_request_raw _ _ client_new_output_ok]
    simp [client_raw_bytes, client_new]
  rw [hraw]
  have hc : (client_with_input [] (multibulk_request args) []).buf = multibulk_request args := by
    simp [client_with_input]
  have hb : (client_with_input [] (multibulk_request args) []).buf_idx +
      (client_with_input [] (multibulk_request args) []).buf_len ≤
      (client_with_input [] (multibulk_request args) []).buf.length := by
    simp [client_with_input, client_new]
  have hu : unconsumed (client_with_input [] (multibulk_request args) []) =
      multibulk_request args ++ [] := by
    simp [unconsumed, client_with_input, client_new]
  have hv := client_parse_command_request_values _ args [] hne hcount hlen hb hu
  rw [hc] at hv
  rw [client_parse_command_request _ args [] hne hcount hlen hb hu]
  exact ⟨rfl, by rw [client_parse_command_request _ args [] hne hcount hlen hb hu] at hv; exact hv⟩

/-! ## What every parse attempt leaves -/

theorem same_buffers_refl (c : client) : same_buffers c c :=
  ⟨rfl, rfl, rfl, rfl, rfl, rfl, rfl⟩

theorem same_buffers_trans {c1 c2 c3 : client} (h1 : same_buffers c1 c2)
    (h2 : same_buffers c2 c3) : same_buffers c1 c3 := by
  obtain ⟨a1, a2, a3, a4, a5, a6, a7⟩ := h1
  obtain ⟨b1, b2, b3, b4, b5, b6, b7⟩ := h2
  exact ⟨b1.trans a1, b2.trans a2, b3.trans a3, b4.trans a4, b5.trans a5, b6.trans a6,
    b7.trans a7⟩

theorem same_buffers_append_arg (c : client) (p n : Nat) :
    same_buffers c (client_append_arg c p n) :=
  ⟨rfl, rfl, rfl, rfl, rfl, rfl, rfl⟩

theorem same_buffers_reset_args (c : client) : same_buffers c { c with args := [] } :=
  ⟨rfl, rfl, rfl, rfl, rfl, rfl, rfl⟩

theorem set_restore_getD {buf : List Nat} {p : Nat} (h : buf.getD p 0 = 13) (v : Nat) :
    (buf.set p v).set p 13 = buf := by
  rw [List.set_set]
  apply List.ext_getElem?
  intro n
  rw [List.getElem?_set]
  split
  · next hp =>
    subst hp
    split
    · next hl =>
      simp [List.getElem?_eq_getElem hl] at h ⊢
      exact h.symm
    · next hl =>
      simp at hl
      simp [hl]
  · rfl

theorem spans_within_nil (lo hi : Nat) : spans_within lo hi [] := by
  intro a h; cases h

theorem spans_within_mono {lo hi lo2 hi2 : Nat} {l : List (Nat × Nat)}
    (h : spans_within lo hi l) (h1 : lo2 ≤ lo) (h2 : hi ≤ hi2) : spans_within lo2 hi2 l := by
  intro a ha
  have := h a ha
  omega

theorem spans_within_append {lo hi : Nat} {l1 l2 : List (Nat × Nat)}
    (h1 : spans_within lo hi l1) (h2 : spans_within lo hi l2) :
    spans_within lo hi (l1 ++ l2) := by
  intro a ha
  rcases List.mem_append.mp ha with h | h
  · exact h1 a h
  · exact h2 a h

theorem spans_within_single {lo hi p n : Nat} (h1 : lo ≤ p) (h2 : p + n ≤ hi) :
    spans_within lo hi [(p, n)] := by
  intro a ha
  simp at ha
  subst ha
  exact ⟨h1, h2⟩

/-- The header scan leaves the buffers and the arguments as they are, and ends
inside `[i, i + k]`. -/
theorem multibulk_count_loop_post (s : Nat) : ∀ (k i : Nat) (c : client),
    (multibulk_count_loop s k i c).post
      (fun e c2 => e ≠ none ∧ same_buffers c c2 ∧ c2.args = c.args)
      (fun a c2 => same_buffers c c2 ∧ c2.args = c.args ∧ i ≤ a.2 ∧ a.2 ≤ i + k) := by
  intro k
  induction k with
  | zero =>
    intro i c
    exact ⟨same_buffers_refl c, rfl, Nat.le_refl _, Nat.le_refl _⟩
  | succ k ih =>
    intro i c
    rw [multibulk_count_loop]
    split
    · split
      · exact ⟨by simp, same_buffers_refl c, rfl⟩
      · next h13 =>
        have h13' : c.buf.getD (i - 1) 0 = 13 := by simpa using h13
        have hr := set_restore_getD h13' 0
        simp only [hr]
        split
        · exact ⟨by simp, same_buffers_refl c, rfl⟩
        · exact ⟨same_buffers_refl c, rfl, by simp, by simp⟩
    · have := ih (i + 1) c
      cases hq : multibulk_count_loop s k (i + 1) c with
      | ret e c2 =>
        rw [hq] at this
        exact this
      | next a c2 =>
        rw [hq] at this
        obtain ⟨h1, h2, h3, h4⟩ := this
        exact ⟨h1, h2, by omega, by omega⟩

/-- The scan of one element leaves the buffers as they are, appends spans that
lie in `[i, end]` and ends inside `[i, z]`. -/
theorem multibulk_len_loop_post (z s : Nat) : ∀ (k i : Nat) (c : client), i + k ≤ z →
    (multibulk_len_loop z s k i c).post
      (fun e c2 => e ≠ none ∧ same_buffers c c2)
      (fun a c2 => same_buffers c c2 ∧ i ≤ a ∧ a ≤ z ∧
        ∃ l, c2.args = c.args ++ l ∧ spans_within i a l) := by
  intro k
  induction k with
  | zero =>
    intro i c hz
    exact ⟨same_buffers_refl c, Nat.le_refl _, by omega, [], by simp, spans_within_nil _ _⟩
  | succ k ih =>
    intro i c hz
    rw [multibulk_len_loop]
    split
    · split
      · exact ⟨by simp, same_buffers_refl c⟩
      · next h13 =>
        have h13' : c.buf.getD (i - 1) 0 = 13 := by simpa using h13
        have hr := set_restore_getD h13' 0
        simp only [hr]
        split
        · exact ⟨by simp, same_buffers_refl c⟩
        · split
          · exact ⟨by simp, same_buffers_refl c⟩
          · next hroom =>
            split
            · exact ⟨by simp, same_buffers_refl c⟩
            · split
              · exact ⟨by simp, same_buffers_refl c⟩
              · refine ⟨same_buffers_append_arg _ _ _, by omega, by omega, [(i + 1, _)], rfl, ?_⟩
                exact spans_within_single (by omega) (by omega)
    · have := ih (i + 1) c (by omega)
      cases hq : multibulk_len_loop z s k (i + 1) c with
      | ret e c2 =>
        rw [hq] at this
        exact this
      | next a c2 =>
        rw [hq] at this
        obtain ⟨h1, h2, h3, l, h4, h5⟩ := this
        exact ⟨h1, by omega, h3, l, h4, spans_within_mono h5 (by omega) (Nat.le_refl _)⟩

/-- The loop over the elements leaves the buffers as they are, appends spans
that lie in `[i, end]` and ends inside `[i, z]`. -/
theorem multibulk_args_loop_post (z : Nat) : ∀ (n i : Nat) (c : client), i ≤ z →
    (multibulk_args_loop z n i c).post
      (fun e c2 => e ≠ none ∧ same_buffers c c2)
      (fun a c2 => same_buffers c c2 ∧ i ≤ a ∧ a ≤ z ∧
        ∃ l, c2.args = c.args ++ l ∧ spans_within i a l) := by
  intro n
  induction n with
  | zero =>
    intro i c hz
    exact ⟨same_buffers_refl c, Nat.le_refl _, hz, [], by simp, spans_within_nil _ _⟩
  | succ n ih =>
    intro i c hz
    rw [multibulk_args_loop]
    split
    · exact ⟨by simp, same_buffers_refl c⟩
    · next hiz =>
      split
      · exact ⟨by simp, rfl, rfl, rfl, rfl, rfl, rfl, rfl⟩
      · have h1 := multibulk_len_loop_post z (i + 1) (z - (i + 1)) (i + 1) c (by omega)
        simp only
        cases hq : multibulk_len_loop z (i + 1) (z - (i + 1)) (i + 1) c with
        | ret e c2 =>
          rw [hq] at h1
          exact h1
        | next a c2 =>
          rw [hq] at h1
          obtain ⟨b1, b2, b3, l, b4, b5⟩ := h1
          have h2 := ih a c2 b3
          simp only
          cases hq2 : multibulk_args_loop z n a c2 with
          | ret e c3 =>
            rw [hq2] at h2
            exact ⟨h2.1, same_buffers_trans b1 h2.2⟩
          | next a3 c3 =>
            rw [hq2] at h2
            obtain ⟨d1, d2, d3, l2, d4, d5⟩ := h2
            refine ⟨same_buffers_trans b1 d1, by omega, d3, l ++ l2, ?_, ?_⟩
            · rw [d4, b4, List.append_assoc]
            · exact spans_within_append (spans_within_mono b5 (by omega) d2)
                (spans_within_mono d5 (by omega) (Nat.le_refl _))

/-- The scan for the closing quote leaves the buffers as they are; when it ends
it has appended at most the span `[s, a + 1)`. -/
theorem telnet_quote_loop_post (z b s : Nat) : ∀ (k i : Nat) (c : client), 1 ≤ s → s ≤ i →
    (telnet_quote_loop z b s k i c).post
      (fun e c2 => e ≠ none ∧ same_buffers c c2)
      (fun a c2 => same_buffers c c2 ∧ i ≤ a + 1 ∧
        ∃ l, c2.args = c.args ++ l ∧ spans_within s (a + 1) l) := by
  intro k
  induction k with
  | zero =>
    intro i c _ _
    exact ⟨same_buffers_refl c, by omega, [], by simp, spans_within_nil _ _⟩
  | succ k ih =>
    intro i c hs hi
    rw [telnet_quote_loop]
    split
    · split
      · refine ⟨same_buffers_append_arg _ _ _, by omega, [(s, i - s)], rfl, ?_⟩
        exact spans_within_single (Nat.le_refl _) (by omega)
      · exact ⟨by simp, same_buffers_refl c⟩
    · have := ih (i + 1) c hs (by omega)
      cases hq : telnet_quote_loop z b s k (i + 1) c with
      | ret e c2 =>
        rw [hq] at this
        exact this
      | next a c2 =>
        rw [hq] at this
        obtain ⟨h1, h2, l, h4, h5⟩ := this
        exact ⟨h1, by omega, l, h4, h5⟩

theorem same_buffers_release_len (c : client) (i : Nat) :
    (release c i).buf = c.buf ∧ (release c i).buf_cap = c.buf_cap ∧
    (release c i).output = c.output ∧ (release c i).output_len = c.output_len ∧
    (release c i).output_cap = c.output_cap := by
  unfold release
  simp only
  split <;> exact ⟨rfl, rfl, rfl, rfl, rfl⟩

/-- The outer loop of the inline grammar: see `parse_outcome`. -/
theorem telnet_loop_post (z lo : Nat) : ∀ (fuel i s : Nat) (first : Bool) (c : client),
    lo ≤ s → s ≤ i → spans_within lo i c.args →
    parse_outcome c lo i z (telnet_loop z fuel i s first c) := by
  intro fuel
  induction fuel with
  | zero =>
    intro i s first c _ _ _
    exact ⟨fun _ => same_buffers_refl c, fun h => by simp [telnet_loop] at h⟩
  | succ fuel ih =>
    intro i s first c hlo hs hsp
    -- a recursive call on a later index
    have hrec : ∀ (i2 s2 : Nat) (first2 : Bool) (c2 : client), same_buffers c c2 → i < i2 →
        lo ≤ s2 → s2 ≤ i2 → spans_within lo i2 c2.args →
        parse_outcome c lo i z (telnet_loop z fuel i2 s2 first2 c2) := by
      intro i2 s2 first2 c2 hsb hi2 hlo2 hs2 hsp2
      obtain ⟨r1, r2⟩ := ih i2 s2 first2 c2 hlo2 hs2 hsp2
      refine ⟨fun h => same_buffers_trans hsb (r1 h), fun h => ?_⟩
      obtain ⟨i3, c3, e1, e2, e3, e4, e5⟩ := r2 h
      exact ⟨i3, c3, e1, same_buffers_trans hsb e2, by omega, e4, e5⟩
    rw [telnet_loop]
    split
    · next hiz =>
      split
      · split
        · exact ⟨fun _ => same_buffers_refl c, fun h => by simp at h⟩
        · have hq := telnet_quote_loop_post z (c.buf.getD i 0) (i + 1) (z - (i + 1)) (i + 1) c
            (by omega) (Nat.le_refl _)
          simp only
          cases hqq : telnet_quote_loop z (c.buf.getD i 0) (i + 1) (z - (i + 1)) (i + 1) c with
          | ret e c2 =>
            rw [hqq] at hq
            simp only
            exact ⟨fun _ => hq.2, fun h => absurd h hq.1⟩
          | next a c2 =>
            rw [hqq] at hq
            obtain ⟨b1, b2, l, b4, b5⟩ := hq
            simp only
            apply hrec _ _ _ _ b1 (by omega) (by omega) (by omega)
            rw [b4]
            exact spans_within_append (spans_within_mono hsp (Nat.le_refl _) (by omega))
              (spans_within_mono b5 (by omega) (by omega))
      · split
        · refine ⟨fun h => by simp at h, fun _ => ⟨i + 1, _, rfl, ?_, by omega, by omega, ?_⟩⟩
          · split
            · exact same_buffers_append_arg _ _ _
            · exact same_buffers_refl c
          · split
            · simp only [client_append_arg_args]
              refine spans_within_append (spans_within_mono hsp (Nat.le_refl _) (by omega)) ?_
              apply spans_within_single hlo
              split <;> omega
            · exact spans_within_mono hsp (Nat.le_refl _) (by omega)
        · split
          · split
            · apply hrec _ _ _ _ (same_buffers_append_arg _ _ _) (by omega) hlo (by omega)
              simp only [client_append_arg_args]
              refine spans_within_append (spans_within_mono hsp (Nat.le_refl _) (by omega)) ?_
              exact spans_within_single hlo (by omega)
            · exact hrec _ _ _ _ (same_buffers_refl c) (by omega) hlo (by omega)
                (spans_within_mono hsp (Nat.le_refl _) (by omega))
          · split
            · exact hrec _ _ _ _ (same_buffers_refl c) (by omega) (by omega) (by omega)
                (spans_within_mono hsp (Nat.le_refl _) (by omega))
            · exact hrec _ _ _ _ (same_buffers_refl c) (by omega) hlo (by omega)
                (spans_within_mono hsp (Nat.le_refl _) (by omega))
    · exact ⟨fun _ => same_buffers_refl c, fun h => by simp at h⟩

theorem parse_outcome_of_same {c c0 : client} {lo i z : Nat} {r : error × client}
    (h : same_buffers c c0) (hr : parse_outcome c0 lo i z r) : parse_outcome c lo i z r := by
  obtain ⟨r1, r2⟩ := hr
  refine ⟨fun hne => same_buffers_trans h (r1 hne), fun hn => ?_⟩
  obtain ⟨i2, c2, e1, e2, e3, e4, e5⟩ := r2 hn
  exact ⟨i2, c2, e1, same_buffers_trans h e2, e3, e4, e5⟩

/-- The inline parser: see `parse_outcome`. -/
theorem client_parse_telnet_command_post (c : client) :
    parse_outcome c c.buf_idx c.buf_idx (c.buf_idx + c.buf_len)
      (client_parse_telnet_command c) := by
  unfold client_parse_telnet_command
  simp only
  split
  · exact ⟨fun _ => same_buffers_refl c, fun h => by simp at h⟩
  · apply parse_outcome_of_same (same_buffers_reset_args c)
    rw [Nat.add_comm c.buf_len c.buf_idx]
    exact telnet_loop_post (c.buf_idx + c.buf_len) c.buf_idx _ c.buf_idx c.buf_idx true
      { c with args := [] } (Nat.le_refl _) (Nat.le_refl _) (spans_within_nil _ _)

/-- The parser, either grammar: on "incomplete" or an error the buffers are those
before the call; on success bytes up to an index `i2` with
`buf_idx < i2 ≤ buf_idx + buf_len` are released and every argument lies inside
`[buf_idx, i2]`. -/
theorem client_parse_command_post (c : client) :
    parse_outcome c c.buf_idx c.buf_idx (c.buf_idx + c.buf_len) (client_parse_command c) := by
  unfold client_parse_command
  simp only
  split
  · exact ⟨fun _ => same_buffers_reset_args c, fun h => by simp at h⟩
  · next hiz =>
    split
    · exact parse_outcome_of_same (same_buffers_reset_args c)
        (client_parse_telnet_command_post { c with args := [] })
    · have h1 := multibulk_count_loop_post (c.buf_idx + 1)
        (c.buf_idx + c.buf_len - (c.buf_idx + 1)) (c.buf_idx + 1) { c with args := [] }
      cases hq : multibulk_count_loop (c.buf_idx + 1)
          (c.buf_idx + c.buf_len - (c.buf_idx + 1)) (c.buf_idx + 1) { c with args := [] } with
      | ret e c2 =>
        rw [hq] at h1
        exact ⟨fun _ => same_buffers_trans (same_buffers_reset_args c) h1.2.1,
          fun h => absurd h h1.1⟩
      | next a c2 =>
        rw [hq] at h1
        obtain ⟨n, i1⟩ := a
        obtain ⟨b1, b2, b3, b4⟩ := h1
        simp only at b3 b4 ⊢
        split
        · exact ⟨fun _ => same_buffers_trans (same_buffers_reset_args c) b1,
            fun h => by simp at h⟩
        · next hi1 =>
          have h2 := multibulk_args_loop_post (c.buf_idx + c.buf_len) n.toNat i1 c2 (by omega)
          cases hq2 : multibulk_args_loop (c.buf_idx + c.buf_len) n.toNat i1 c2 with
          | ret e c3 =>
            rw [hq2] at h2
            exact ⟨fun _ => same_buffers_trans (same_buffers_reset_args c)
              (same_buffers_trans b1 h2.2), fun h => absurd h h2.1⟩
          | next i2 c3 =>
            rw [hq2] at h2
            obtain ⟨d1, d2, d3, l, d4, d5⟩ := h2
            refine ⟨fun h => by simp at h, fun _ => ⟨i2, c3, rfl, ?_, by omega, d3, ?_⟩⟩
            · exact same_buffers_trans (same_buffers_reset_args c) (same_buffers_trans b1 d1)
            · rw [d4, b2]
              exact spans_within_mono d5 (by omega) (Nat.le_refl _)

/-! ## The read loop -/

/-- The invariant of the input buffer. -/
theorem input_invariant_parse (c : client)
    (h : c.buf_idx + c.buf_len ≤ c.buf_cap ∧ (c.buf_len = 0 → c.buf_idx = 0)) :
    (client_parse_command c).2.buf_idx + (client_parse_command c).2.buf_len ≤
      (client_parse_command c).2.buf_cap ∧
    ((client_parse_command c).2.buf_len = 0 → (client_parse_command c).2.buf_idx = 0) := by
  obtain ⟨r1, r2⟩ := client_parse_command_post c
  cases he : (client_parse_command c).1 with
  | some e =>
    obtain ⟨_, b2, b3, b4, _⟩ := r1 (by rw [he]; simp)
    rw [b2, b3, b4]
    exact h
  | none =>
    obtain ⟨i2, c2, e1, ⟨_, d2, d3, d4, _⟩, e3, e4, _⟩ := r2 he
    rw [e1]
    have hcap := (same_buffers_release_len c2 i2).2.1
    rw [hcap, release_buf_len, release_buf_idx, d2, d3, d4]
    constructor
    · split <;> omega
    · intro h0
      rw [if_pos h0]

theorem client_read_command_succ (fuel : Nat) (c : client) (t : List segment) :
    client_read_command (fuel + 1) c t =
      match client_parse_command c with
      | (none, c) => (none, c, t)
      | (some err, c) =>
        if err ≠ err_incomplete then (some err, c, t)
        else
          match client_read t (input_room (input_grow c)) with
          | (some err, _, _, t) =>
            if (input_grow c).buf_len > 0 then
              (some "Protocol error: incomplete command", input_grow c, t)
            else (some err, input_grow c, t)
          | (none, n, d, t) =>
            client_read_command fuel (input_append (input_grow c) d n.toNat) t := rfl

/-- A successful read returns between 1 and `nbyte` bytes and leaves a lighter
transport. -/
theorem client_read_ok (t : List segment) (nbyte : Nat) (n : Int) (d : List Nat)
    (t2 : List segment) (h : client_read t nbyte = (none, n, d, t2)) :
    n = (d.length : Int) ∧ 0 < d.length ∧ d.length ≤ nbyte ∧
    transport_weight t2 < transport_weight t := by
  unfold client_read at h
  cases t with
  | nil => simp at h
  | cons sg t =>
    cases sg with
    | fail => simp at h
    | data d0 =>
      simp only at h
      by_cases hd : d0.length ≤ nbyte
      · simp only [hd, if_true] at h
        split at h
        · split at h <;> simp at h
        · next hpos =>
          simp only [Prod.mk.injEq, true_and] at h
          obtain ⟨h1, h2, h3⟩ := h
          subst h2 h3
          simp only [not_le] at hpos
          refine ⟨h1.symm, by omega, hd, ?_⟩
          simp [transport_weight]
      · simp only [hd, if_false] at h
        split at h
        · split at h <;> simp at h
        · next hpos =>
          simp only [Prod.mk.injEq, true_and] at h
          obtain ⟨h1, h2, h3⟩ := h
          subst h2 h3
          simp only [not_le] at hpos hd
          have hl : (d0.take nbyte).length = nbyte := by simp; omega
          refine ⟨by rw [hl]; exact h1.symm, by omega, by omega, ?_⟩
          simp [transport_weight]
          omega

/-- The end of the stream: the read returns "eof". -/
theorem client_read_nil (nbyte : Nat) : client_read [] nbyte = (some "eof", 0, [], []) := by
  simp [client_read]

/-- The function `client_read_command` gives the same result for every fuel above the weight
of the transport: it never runs out of it. -/
theorem client_read_command_fuel : ∀ (f1 f2 : Nat) (c : client) (t : List segment),
    transport_weight t < f1 → transport_weight t < f2 →
    client_read_command f1 c t = client_read_command f2 c t := by
  intro f1
  induction f1 with
  | zero => intro f2 c t h _; omega
  | succ f1 ih =>
    intro f2 c t h1 h2
    cases f2 with
    | zero => omega
    | succ f2 =>
      rw [client_read_command_succ, client_read_command_succ]
      cases hp : client_parse_command c with
      | mk e c1 =>
        cases e with
        | none => rfl
        | some err =>
          simp only
          split
          · rfl
          · cases hr : client_read t (input_room (input_grow c1)) with
            | mk e2 r =>
              obtain ⟨n, d, t2⟩ := r
              cases e2 with
              | some err2 => rfl
              | none =>
                have := client_read_ok _ _ _ _ _ hr
                exact ih f2 _ t2 (by omega) (by omega)

theorem input_grow_output (c : client) :
    (input_grow c).output = c.output ∧ (input_grow c).output_len = c.output_len ∧
    (input_grow c).output_cap = c.output_cap ∧ (input_grow c).buf_len = c.buf_len ∧
    (input_grow c).buf_idx = c.buf_idx ∧ c.buf_cap ≤ (input_grow c).buf_cap := by
  unfold input_grow
  split
  · refine ⟨rfl, rfl, rfl, rfl, rfl, ?_⟩
    simp only
    split <;> omega
  · exact ⟨rfl, rfl, rfl, rfl, rfl, Nat.le_refl _⟩

/-- The parser does not touch the output buffer. -/
theorem client_parse_command_output (c : client) :
    (client_parse_command c).2.output = c.output ∧
    (client_parse_command c).2.output_len = c.output_len ∧
    (client_parse_command c).2.output_cap = c.output_cap := by
  obtain ⟨r1, r2⟩ := client_parse_command_post c
  cases he : (client_parse_command c).1 with
  | some e =>
    obtain ⟨_, _, _, _, b5, b6, b7⟩ := r1 (by rw [he]; simp)
    exact ⟨b5, b6, b7⟩
  | none =>
    obtain ⟨i2, c2, e1, ⟨_, _, _, _, d5, d6, d7⟩, _⟩ := r2 he
    obtain ⟨_, _, q1, q2, q3⟩ := same_buffers_release_len c2 i2
    rw [e1, q1, q2, q3]
    exact ⟨d5, d6, d7⟩

/-- The function `client_read_command` does not touch the output buffer. -/
theorem client_read_command_output : ∀ (fuel : Nat) (c : client) (t : List segment),
    (client_read_command fuel c t).2.1.output = c.output ∧
    (client_read_command fuel c t).2.1.output_len = c.output_len ∧
    (client_read_command fuel c t).2.1.output_cap = c.output_cap := by
  intro fuel
  induction fuel with
  | zero => intro c t; exact ⟨rfl, rfl, rfl⟩
  | succ fuel ih =>
    intro c t
    rw [client_read_command_succ]
    have hp := client_parse_command_output c
    cases hq : client_parse_command c with
    | mk e c1 =>
      rw [hq] at hp
      simp only at hp
      cases e with
      | none => exact hp
      | some err =>
        simp only
        split
        · exact hp
        · have hg := input_grow_output c1
          cases hr : client_read t (input_room (input_grow c1)) with
          | mk e2 r =>
            obtain ⟨n, d, t2⟩ := r
            cases e2 with
            | some err2 =>
              simp only
              split
              · exact ⟨hg.1.trans hp.1, hg.2.1.trans hp.2.1, hg.2.2.1.trans hp.2.2⟩
              · exact ⟨hg.1.trans hp.1, hg.2.1.trans hp.2.1, hg.2.2.1.trans hp.2.2⟩
            | none =>
              simp only
              obtain ⟨i1, i2, i3⟩ := ih (input_append (input_grow c1) d n.toNat) t2
              exact ⟨i1.trans (hg.1.trans hp.1), i2.trans (hg.2.1.trans hp.2.1),
                i3.trans (hg.2.2.1.trans hp.2.2)⟩

/-- The states `client_read_command` goes through and returns are reachable. -/
theorem client_read_command_reachable : ∀ (fuel : Nat) (c : client) (t : List segment),
    input_reachable c → input_reachable (client_read_command fuel c t).2.1 := by
  intro fuel
  induction fuel with
  | zero => intro c t h; exact h
  | succ fuel ih =>
    intro c t h
    rw [client_read_command_succ]
    have hp := input_reachable.parse c h
    cases hq : client_parse_command c with
    | mk e c1 =>
      rw [hq] at hp
      simp only at hp
      cases e with
      | none => exact hp
      | some err =>
        simp only
        split
        · exact hp
        · have hg := input_reachable.grow c1 hp
          cases hr : client_read t (input_room (input_grow c1)) with
          | mk e2 r =>
            obtain ⟨n, d, t2⟩ := r
            cases e2 with
            | some err2 =>
              simp only
              split <;> exact hg
            | none =>
              simp only
              obtain ⟨k1, _, k3, _⟩ := client_read_ok _ _ _ _ _ hr
              subst k1
              rw [Int.toNat_ofNat]
              exact ih _ t2 (input_reachable.read _ d hg k3)

/-! ## Rejected counts and lengths -/

/-- The digit loop of `strtol` on a run of digits followed by a byte that is no
digit. -/
theorem strtol_digits_run (b : Nat) (hb : isdigit b = false) (rest : List Nat) :
    ∀ (ds : List Nat) (acc : Nat), (∀ d ∈ ds, isdigit d = true) →
    strtol_digits (ds ++ b :: rest) acc = ds.foldl (fun acc b => acc * 10 + (b - 48)) acc := by
  intro ds
  induction ds with
  | nil => intro acc _; simp [strtol_digits, hb]
  | cons d ds ih =>
    intro acc hd
    have h1 : isdigit d = true := hd d (by simp)
    simp only [List.cons_append, strtol_digits, h1, if_true, List.foldl_cons]
    exact ih _ (fun x hx => hd x (by simp [hx]))

/-- The digits `utoa` writes denote the number they were written for. -/
theorem decimal_value_utoa (n : Nat) : decimal_value (utoa n) = n := by
  have h1 := strtol_digits_run 0 (by decide) [] (utoa n) 0
    (fun d hd => by have := utoa_digits n d hd; simp [isdigit]; omega)
  have h2 := strtol_digits_utoa n [0]
  rw [h2] at h1
  simpa [strtol_digits, isdigit, decimal_value] using h1.symm

/-- The function `atoi` on a minus sign and a run of digits: the negated value,
saturated to `long` and truncated to `int`. -/
theorem atoi_neg_digits (ds : List Nat) (hd : ∀ d ∈ ds, isdigit d = true) (b : Nat)
    (hb : isdigit b = false) (rest : List Nat) :
    atoi (45 :: (ds ++ b :: rest)) = to_int32 (clamp_long (-(decimal_value ds : Int))) := by
  have h1 : List.dropWhile isspace (45 :: (ds ++ b :: rest)) = 45 :: (ds ++ b :: rest) := by
    simp [List.dropWhile, isspace]
  simp only [atoi, strtol, h1, List.head?_cons, List.tail_cons, if_true,
    strtol_digits_run b hb rest ds 0 hd, decimal_value]

/-- The negated values that `atoi` does not read as a positive `int`. -/
theorem to_int32_neg_le (v : Nat)
    (hv : 9223372036854775808 ≤ v ∨ v % 4294967296 ≤ 2147483648) :
    to_int32 (clamp_long (-(v : Int))) ≤ 0 := by
  simp only [clamp_long, to_int32]
  split
  · omega
  · split <;> omega

/-- The negated values that `atoi` reads as a positive `int`. -/
theorem to_int32_neg_pos (v : Nat)
    (hv : ¬ (9223372036854775808 ≤ v ∨ v % 4294967296 ≤ 2147483648)) :
    0 < to_int32 (clamp_long (-(v : Int))) := by
  simp only [clamp_long, to_int32]
  split
  · omega
  · split <;> omega

theorem minus_digits_no_lf (ds : List Nat) (hd : ∀ d ∈ ds, isdigit d = true) :
    10 ∉ 45 :: ds := by
  intro h
  simp at h
  have := hd 10 h
  simp [isdigit] at this

theorem strtol_digits_without_digit (l : List Nat) (acc : Nat)
    (h : ∀ b ∈ l, isdigit b = false) : strtol_digits l acc = acc := by
  cases l with
  | nil => rfl
  | cons b t => simp [strtol_digits, h b (by simp)]

/-- The function `atoi` on a text without any digit: 0. -/
theorem atoi_without_digit (t : List Nat) (h : ∀ b ∈ t, isdigit b = false) : atoi t = 0 := by
  have hd : ∀ b ∈ t.dropWhile isspace, isdigit b = false :=
    fun b hb => h b ((List.dropWhile_sublist _).subset hb)
  have h1 : strtol_digits (t.dropWhile isspace) 0 = 0 := strtol_digits_without_digit _ _ hd
  have h2 : strtol_digits (t.dropWhile isspace).tail 0 = 0 :=
    strtol_digits_without_digit _ _ (fun b hb => hd b (List.mem_of_mem_tail hb))
  simp only [atoi, strtol, h1, h2]
  split
  · decide
  · split <;> decide

/-- One well-formed element at `i`, with more iterations to go: its argument is
appended and the loop goes on after it. -/
theorem multibulk_args_loop_step (z n i : Nat) (c : client) (a rest : List Nat)
    (hview : c.buf.drop i = bulk_bytes a ++ rest) (hal : a.length < 2147483648)
    (hz : i + (bulk_bytes a).length ≤ z) :
    multibulk_args_loop z (n + 1) i c =
      multibulk_args_loop z n (i + (bulk_bytes a).length)
        (client_append_arg c (i + 1 + (sprintf_d a.length).length + 2) a.length) := by
  have hbl := bulk_bytes_length a
  have hv0 : c.buf.drop i = 36 :: (utoa a.length ++ 13 :: 10 :: (a ++ 13 :: 10 :: rest)) := by
    rw [hview]; simp [bulk_bytes, sprintf_d_nat]
  have h36 : c.buf.getD i 0 = 36 := by
    have := getD_of_view hv0 0; simpa using this
  have hv1 : c.buf.drop (i + 1) = utoa a.length ++ 13 :: 10 :: (a ++ 13 :: 10 :: rest) := by
    have := drop_view_add (l := [36]) (by simpa using hv0)
    simpa using this
  have hatoi : atoi (utoa a.length ++ 0 :: 10 :: (a ++ 13 :: 10 :: rest))
      = (a.length : Int) := atoi_utoa a.length hal 0 (by decide) _
  have hscan := multibulk_len_loop_scan c z (i + 1) (utoa a.length) _ hv1 (utoa_no_lf _)
    (utoa a.length).length 0 (z - (i + 1)) (by omega) (by omega)
  rw [hatoi] at hscan
  have hv2 : c.buf.drop (i + 1 + (utoa a.length).length + 2) = a ++ 13 :: 10 :: rest := by
    have := drop_view_add (l := utoa a.length ++ [13, 10]) (by simpa using hv1)
    simpa [Nat.add_assoc] using this
  have hcr : c.buf.getD (i + 1 + (utoa a.length).length + 2 + a.length) 0 = 13 :=
    view_cr hv2
  have hlf : c.buf.getD (i + 1 + (utoa a.length).length + 2 + a.length + 1) 0 = 10 :=
    view_lf hv2
  have hc1 : ¬ ((a.length : Int) ≤ 0 ∧ ((a.length : Int) < 0 ∨ (utoa a.length).length + 1 ≠ 2))
      := by
    rintro ⟨h0, h1⟩
    have h00 : a.length = 0 := by omega
    rw [h00] at h1
    rcases h1 with h1 | h1
    · omega
    · exact h1 (by decide)
  simp only [Nat.add_zero, Int.toNat_ofNat, hc1, if_false, hcr, hlf, ne_eq,
    not_true_eq_false] at hscan
  rw [if_neg (by omega)] at hscan
  rw [multibulk_args_loop, if_neg (by omega), if_neg (by rw [h36]; decide)]
  simp only [hscan]
  have e : i + 1 + (utoa a.length).length + 2 + (a.length + 2) = i + (bulk_bytes a).length := by
    rw [hbl]; omega
  rw [e, sprintf_d_nat]

/-- Well-formed elements at `i`, with `m` more iterations to go: their arguments
are appended and the loop goes on after them. -/
theorem multibulk_args_loop_skip (z m : Nat) : ∀ (args : List (List Nat)) (i : Nat)
    (c : client) (rest : List Nat), c.buf.drop i = bulks_bytes args ++ rest →
    (∀ a ∈ args, a.length < 2147483648) → i + (bulks_bytes args).length ≤ z →
    multibulk_args_loop z (args.length + m) i c =
      multibulk_args_loop z m (i + (bulks_bytes args).length)
        (append_args c (bulk_spans i args)) := by
  intro args
  induction args with
  | nil => intro i c rest _ _ _; simp [bulks_bytes, bulk_spans, append_args_nil]
  | cons a as ih =>
    intro i c rest hview hlen hz
    simp only [bulks_bytes, List.length_append] at hz
    have hv : c.buf.drop i = bulk_bytes a ++ (bulks_bytes as ++ rest) := by
      rw [hview]; simp [bulks_bytes]
    have e : (a :: as).length + m = (as.length + m) + 1 := by simp; omega
    rw [e, multibulk_args_loop_step z _ i c a _ hv (hlen a (by simp)) (by omega),
      ih (i + (bulk_bytes a).length)
        (client_append_arg c (i + 1 + (sprintf_d a.length).length + 2) a.length) rest
        (drop_view_add hv) (fun b hb => hlen b (by simp [hb])) (by omega)]
    simp only [bulks_bytes, List.length_append, bulk_spans, append_args_cons, Nat.add_assoc]

/-- The function `atoi` on a minus sign and the decimal digits of `n`, within the range of `int`. -/
theorem atoi_neg_utoa (n : Nat) (hn : n ≤ 2147483648) (b : Nat) (hb : isdigit b = false)
    (rest : List Nat) : atoi (45 :: (utoa n ++ b :: rest)) = -(n : Int) := by
  have h1 : List.dropWhile isspace (45 :: (utoa n ++ b :: rest)) =
      45 :: (utoa n ++ b :: rest) := by
    simp [List.dropWhile, isspace]
  have h3 : strtol_digits (utoa n ++ b :: rest) 0 = n := by
    rw [strtol_digits_utoa]; simp [strtol_digits, hb]
  simp only [atoi, strtol, h1, List.head?_cons, List.tail_cons, if_true, h3]
  simp only [clamp_long, to_int32]
  have : ¬ (-(n : Int) > 9223372036854775807) := by omega
  have : ¬ (-(n : Int) < -9223372036854775808) := by omega
  simp only [*, if_false]
  omega

/-- The header `*<text>\r\n` with a count text that `atoi` reads as a negative
number or as a zero that is not one character long: the parser returns
"invalid multibulk length". -/
theorem client_parse_command_count_error (c : client) (text rest : List Nat)
    (hnl : 10 ∉ text) (hb : c.buf_idx + c.buf_len ≤ c.buf.length)
    (hu : unconsumed c = 42 :: (text ++ 13 :: 10 :: rest))
    (hbad : atoi (text ++ [0]) < 0 ∨ (atoi (text ++ [0]) = 0 ∧ text.length ≠ 1)) :
    client_parse_command c = (some err_multibulk_length, { c with args := [] }) := by
  obtain ⟨hl, post, hv⟩ := unconsumed_view c _ hb hu
  simp only [List.length_append, List.length_cons] at hl
  have hv0 : c.buf.drop c.buf_idx = 42 :: (text ++ 13 :: 10 :: (rest ++ post)) := by
    rw [hv]; simp
  have h42 : c.buf.getD c.buf_idx 0 = 42 := by
    have := getD_of_view hv0 0; simpa using this
  have hv1 : c.buf.drop (c.buf_idx + 1) = text ++ 13 :: 10 :: (rest ++ post) := by
    have := drop_view_add (l := [42]) (by simpa using hv0)
    simpa using this
  have hscan := multibulk_count_loop_scan { c with args := [] } (c.buf_idx + 1)
    text _ hv1 hnl text.length 0 (c.buf_idx + c.buf_len - (c.buf_idx + 1)) (by omega) (by omega)
  rw [atoi_nul] at hscan
  have hc : atoi (text ++ [0]) ≤ 0 ∧ (atoi (text ++ [0]) < 0 ∨ text.length + 1 ≠ 2) := by
    rcases hbad with h | ⟨h0, h1⟩
    · exact ⟨by omega, Or.inl h⟩
    · exact ⟨by omega, Or.inr (by omega)⟩
  rw [if_pos hc] at hscan
  unfold client_parse_command
  simp only [ge_iff_le, h42, ne_eq, not_true_eq_false, if_false]
  rw [if_neg (by omega)]
  simp only [Nat.add_zero] at hscan
  rw [hscan]

theorem minus_utoa_no_lf (n : Nat) : 10 ∉ 45 :: utoa n := by
  intro h
  simp at h
  exact utoa_no_lf n h

/-- An element whose length field is a minus sign and the digits of `m`
(`1 ≤ m ≤ 2^31`): the element loop returns "invalid bulk length". -/
theorem multibulk_args_loop_negative (z n i m : Nat) (c : client) (rest : List Nat)
    (hview : c.buf.drop i = 36 :: 45 :: (utoa m ++ 13 :: 10 :: rest))
    (h1 : 1 ≤ m) (h2 : m ≤ 2147483648) (hz : i + 1 + (utoa m).length + 3 ≤ z) :
    multibulk_args_loop z (n + 1) i c = flow.ret (some err_bulk_length) c := by
  have h36 : c.buf.getD i 0 = 36 := by
    have := getD_of_view hview 0; simpa using this
  have hv1 : c.buf.drop (i + 1) = (45 :: utoa m) ++ 13 :: 10 :: rest := by
    have := drop_view_add (l := [36]) (by simpa using hview)
    simpa using this
  have hatoi : atoi ((45 :: utoa m) ++ 0 :: 10 :: rest) = -(m : Int) := by
    have := atoi_neg_utoa m h2 0 (by decide) (10 :: rest)
    simpa using this
  have hscan := multibulk_len_loop_scan c z (i + 1) (45 :: utoa m) _ hv1 (minus_utoa_no_lf m)
    (45 :: utoa m).length 0 (z - (i + 1)) (by omega) (by simp; omega)
  rw [hatoi, if_pos ⟨by omega, Or.inl (by omega)⟩] at hscan
  rw [multibulk_args_loop, if_neg (by omega), if_neg (by rw [h36]; decide)]
  simp only [Nat.add_zero] at hscan
  simp only [hscan]

/-- An element whose length field is a minus sign and a run of digits that
`atoi` does not read as a positive `int`: the element loop returns "invalid
bulk length". -/
theorem multibulk_args_loop_minus (z n i : Nat) (ds : List Nat) (c : client) (rest : List Nat)
    (hview : c.buf.drop i = 36 :: 45 :: (ds ++ 13 :: 10 :: rest))
    (hne : ds ≠ []) (hd : ∀ d ∈ ds, isdigit d = true)
    (hv : 9223372036854775808 ≤ decimal_value ds ∨ decimal_value ds % 4294967296 ≤ 2147483648)
    (hz : i + 1 + ds.length + 3 ≤ z) :
    multibulk_args_loop z (n + 1) i c = flow.ret (some err_bulk_length) c := by
  have h36 : c.buf.getD i 0 = 36 := by
    have := getD_of_view hview 0; simpa using this
  have hv1 : c.buf.drop (i + 1) = (45 :: ds) ++ 13 :: 10 :: rest := by
    have := drop_view_add (l := [36]) (by simpa using hview)
    simpa using this
  have hatoi : atoi ((45 :: ds) ++ 0 :: 10 :: rest) ≤ 0 := by
    have := atoi_neg_digits ds hd 0 (by decide) (10 :: rest)
    rw [List.cons_append, this]
    exact to_int32_neg_le _ hv
  have hl : 0 < ds.length := List.length_pos.mpr hne
  have hscan := multibulk_len_loop_scan c z (i + 1) (45 :: ds) _ hv1 (minus_digits_no_lf ds hd)
    (45 :: ds).length 0 (z - (i + 1)) (by omega) (by simp; omega)
  rw [if_pos ⟨hatoi, Or.inr (by simp only [List.length_cons]; omega)⟩] at hscan
  rw [multibulk_args_loop, if_neg (by omega), if_neg (by rw [h36]; decide)]
  simp only [Nat.add_zero] at hscan
  simp only [hscan]

theorem expected_got_ne_count (c : client) (a b : Nat) :
    (client_err_expected_got c a b).1 ≠ err_multibulk_length := by
  intro h
  have := congrArg String.data h
  simp [client_err_expected_got, err_multibulk_length, String.data_append] at this

theorem multibulk_len_loop_error (z s : Nat) : ∀ (k i : Nat) (c c2 : client) (e : error),
    multibulk_len_loop z s k i c = flow.ret e c2 → e ≠ some err_multibulk_length := by
  intro k
  induction k with
  | zero => intro i c c2 e h; simp [multibulk_len_loop] at h
  | succ k ih =>
    intro i c c2 e h
    rw [multibulk_len_loop] at h
    split at h
    · split at h
      · cases h; decide
      · simp only at h
        split at h
        · cases h; decide
        · split at h
          · cases h; decide
          · split at h
            · cases h; decide
            · split at h
              · cases h; decide
              · cases h
    · exact ih _ _ _ _ h

theorem multibulk_args_loop_error (z : Nat) : ∀ (n i : Nat) (c c2 : client) (e : error),
    multibulk_args_loop z n i c = flow.ret e c2 → e ≠ some err_multibulk_length := by
  intro n
  induction n with
  | zero => intro i c c2 e h; simp [multibulk_args_loop] at h
  | succ n ih =>
    intro i c c2 e h
    rw [multibulk_args_loop] at h
    split at h
    · cases h; decide
    · split at h
      · simp only at h
        cases h
        intro h2
        exact expected_got_ne_count _ _ _ (Option.some.inj h2)
      · simp only at h
        split at h
        · next e1 c1 heq =>
          cases h
          exact multibulk_len_loop_error _ _ _ _ _ _ _ heq
        · exact ih _ _ _ _ h

/-- The header `*<text>\r\n` with a count text that `atoi` reads as a positive
number: whatever follows, the parser does not return "invalid multibulk
length". -/
theorem client_parse_command_count_positive (c : client) (text rest : List Nat)
    (hnl : 10 ∉ text) (hb : c.buf_idx + c.buf_len ≤ c.buf.length)
    (hu : unconsumed c = 42 :: (text ++ 13 :: 10 :: rest))
    (hpos : 0 < atoi (text ++ [0])) :
    (client_parse_command c).1 ≠ some err_multibulk_length := by
  obtain ⟨hl, post, hv⟩ := unconsumed_view c _ hb hu
  simp only [List.length_append, List.length_cons] at hl
  have hv0 : c.buf.drop c.buf_idx = 42 :: (text ++ 13 :: 10 :: (rest ++ post)) := by
    rw [hv]; simp
  have h42 : c.buf.getD c.buf_idx 0 = 42 := by
    have := getD_of_view hv0 0; simpa using this
  have hv1 : c.buf.drop (c.buf_idx + 1) = text ++ 13 :: 10 :: (rest ++ post) := by
    have := drop_view_add (l := [42]) (by simpa using hv0)
    simpa using this
  have hscan := multibulk_count_loop_scan { c with args := [] } (c.buf_idx + 1)
    text _ hv1 hnl text.length 0 (c.buf_idx + c.buf_len - (c.buf_idx + 1)) (by omega) (by omega)
  rw [atoi_nul] at hscan
  rw [if_neg (by omega)] at hscan
  unfold client_parse_command
  simp only [ge_iff_le, h42, ne_eq, not_true_eq_false, if_false]
  rw [if_neg (by omega)]
  simp only [Nat.add_zero] at hscan
  rw [hscan]
  simp only
  split
  · show ¬ (some err_incomplete = some err_multibulk_length)
    decide
  · split
    · next e1 c1 heq => exact multibulk_args_loop_error _ _ _ _ _ _ heq
    · simp

/-- The header `*<text>\r\n` with a count text without any digit (`atoi` reads
it as 0): the parser returns "invalid multibulk length" unless the text is
exactly one character long; a one-character text followed by at least one more
byte after the header is taken for the count zero. -/
theorem count_text_without_digit (c : client) (text rest : List Nat)
    (hnl : 10 ∉ text) (hnd : ∀ b ∈ text, isdigit b = false)
    (hb : c.buf_idx + c.buf_len ≤ c.buf.length)
    (hu : unconsumed c = 42 :: (text ++ 13 :: 10 :: rest)) :
    (text.length ≠ 1 →
      client_parse_command c = (some err_multibulk_length, { c with args := [] })) ∧
    (text.length = 1 → rest ≠ [] →
      (client_parse_command c).1 = none ∧ (client_parse_command c).2.args = [] ∧
      unconsumed (client_parse_command c).2 = rest) := by
  have ha : atoi (text ++ [0]) = 0 := atoi_without_digit _ (by
    intro b hb
    rcases List.mem_append.mp hb with h | h
    · exact hnd b h
    · simp at h; subst h; decide)
  refine ⟨fun h1 => client_parse_command_count_error c text rest hnl hb hu (Or.inr ⟨ha, h1⟩), ?_⟩
  intro h1 hrest
  obtain ⟨hl, post, hv⟩ := unconsumed_view c _ hb hu
  simp only [List.length_append, List.length_cons] at hl
  have hrl : 0 < rest.length := List.length_pos.mpr hrest
  have hv0 : c.buf.drop c.buf_idx = 42 :: (text ++ 13 :: 10 :: (rest ++ post)) := by
    rw [hv]; simp
  have h42 : c.buf.getD c.buf_idx 0 = 42 := by
    have := getD_of_view hv0 0; simpa using this
  have hv1 : c.buf.drop (c.buf_idx + 1) = text ++ 13 :: 10 :: (rest ++ post) := by
    have := drop_view_add (l := [42]) (by simpa using hv0)
    simpa using this
  have hscan := multibulk_count_loop_scan { c with args := [] } (c.buf_idx + 1)
    text _ hv1 hnl text.length 0 (c.buf_idx + c.buf_len - (c.buf_idx + 1)) (by omega) (by omega)
  rw [atoi_nul, ha, if_neg (by omega)] at hscan
  simp only [Nat.add_zero] at hscan
  have hres : client_parse_command c =
      (none, release { c with args := [] } (c.buf_idx + 1 + text.length + 2)) := by
    unfold client_parse_command
    simp only [ge_iff_le, h42, ne_eq, not_true_eq_false, if_false]
    rw [if_neg (by omega), hscan]
    simp only
    rw [if_neg (by omega)]
    rfl
  rw [hres]
  have hv2 : c.buf.drop c.buf_idx = (42 :: (text ++ [13, 10])) ++ (rest ++ post) := by
    rw [hv]; simp
  have hrel := release_view { c with args := [] } (42 :: (text ++ [13, 10])) rest post hv2
    (by simp; omega)
  have e : c.buf_idx + (42 :: (text ++ [13, 10])).length = c.buf_idx + 1 + text.length + 2 := by
    simp; omega
  simp only [e] at hrel
  exact ⟨rfl, by simp, hrel.1⟩

/-! ## Encode calls -/

theorem take_takeWhile_length (p : Nat → Bool) : ∀ (l : List Nat),
    l.take (l.takeWhile p).length = l.takeWhile p := by
  intro l
  induction l with
  | nil => rfl
  | cons a l ih =>
    simp only [List.takeWhile]
    split
    · simp [ih]
    · simp

theorem takeWhile_length_le (p : Nat → Bool) : ∀ (l : List Nat),
    (l.takeWhile p).length ≤ l.length := by
  intro l
  induction l with
  | nil => simp
  | cons a l ih =>
    simp only [List.takeWhile]
    split
    · simp; exact ih
    · simp

/-- The function `client_write_bulk` appends `$<n>\r\n`, the first `n` bytes of `data` and
`\r\n`. -/
theorem client_write_bulk_raw_take (c : client) (data : List Nat) (n : Nat)
    (h : output_ok c) (hn : n ≤ data.length) :
    output_ok (client_write_bulk c data n) ∧
    client_raw_bytes (client_write_bulk c data n) =
      client_raw_bytes c ++ 36 :: (sprintf_d n ++ 13 :: 10 :: (data.take n ++ [13, 10])) := by
  unfold client_write_bulk
  simp only
  obtain ⟨k1, e1, _⟩ := client_write_raw c (36 :: (sprintf_d n ++ [13, 10])) _ h
    (Nat.le_refl _)
  obtain ⟨k2, e2, _⟩ := client_write_raw _ data n k1 hn
  obtain ⟨k3, e3, _⟩ := client_write_byte_raw _ 13 k2
  obtain ⟨k4, e4, _⟩ := client_write_byte_raw _ 10 k3
  rw [List.take_length] at e1
  refine ⟨k4, ?_⟩
  rw [e4, e3, e2, e1]
  simp

/-- A header `<b><n>\r\n` written with `client_write`. -/
theorem client_write_header_raw (c : client) (b : Nat) (n : Int) (h : output_ok c) :
    output_ok (client_write c (b :: (sprintf_d n ++ [13, 10]))
      (b :: (sprintf_d n ++ [13, 10])).length) ∧
    client_raw_bytes (client_write c (b :: (sprintf_d n ++ [13, 10]))
      (b :: (sprintf_d n ++ [13, 10])).length) =
      client_raw_bytes c ++ b :: (sprintf_d n ++ [13, 10]) := by
  obtain ⟨k1, e1, _⟩ := client_write_raw c (b :: (sprintf_d n ++ [13, 10])) _ h
    (Nat.le_refl _)
  rw [List.take_length] at e1
  exact ⟨k1, e1⟩

/-- The function `client_write_error` appends `-ERR `, the message and `\r\n`. -/
theorem client_write_error_raw (c : client) (err : String) (h : output_ok c) :
    output_ok (client_write_error c err) ∧
    client_raw_bytes (client_write_error c err) =
      client_raw_bytes c ++ (string_bytes "-ERR " ++ (c_string err ++ [13, 10])) ∧
    (client_write_error c err).output_len = c.output_len + (5 + (c_string err).length + 2) := by
  unfold client_write_error
  simp only
  obtain ⟨k1, e1, l1⟩ := client_write_raw c (string_bytes "-ERR ") 5 h (by decide)
  obtain ⟨k2, e2, l2⟩ := client_write_raw _ (string_bytes err) (strlen (string_bytes err)) k1
    (takeWhile_length_le _ _)
  obtain ⟨k3, e3, l3⟩ := client_write_byte_raw _ 13 k2
  obtain ⟨k4, e4, l4⟩ := client_write_byte_raw _ 10 k3
  have t1 : (string_bytes "-ERR ").take 5 = string_bytes "-ERR " := by decide
  have t2 : (string_bytes err).take (strlen (string_bytes err)) = c_string err :=
    take_takeWhile_length _ _
  rw [t1] at e1
  rw [t2] at e2
  refine ⟨k4, ?_, ?_⟩
  · rw [e4, e3, e2, e1]
    simp
  · rw [l4, l3, l2, l1]
    show _ = c.output_len + (5 + (strlen (string_bytes err)) + 2)
    omega

/-- Every encode call appends its bytes to the pending output. -/
theorem encode_call_run_raw (c : client) (e : encode_call) (h : output_ok c) (he : e.ok) :
    output_ok (e.run c) ∧ client_raw_bytes (e.run c) = client_raw_bytes c ++ e.bytes := by
  cases e with
  | write data n =>
    obtain ⟨k1, e1, _⟩ := client_write_raw c data n h he
    exact ⟨k1, e1⟩
  | write_bulk data n => exact client_write_bulk_raw_take c data n h he
  | write_multibulk n => exact client_write_header_raw c 42 n h
  | write_int n => exact client_write_header_raw c 58 n h
  | write_error err =>
    obtain ⟨k1, e1, _⟩ := client_write_error_raw c err h
    exact ⟨k1, e1⟩

/-- Two clients with the same pending output have the same pending output after
the same encode calls, and their output buffers stay well allocated. -/
theorem encode_calls_raw : ∀ (l : List encode_call) (c1 c2 : client),
    output_ok c1 → output_ok c2 → (∀ e ∈ l, e.ok) →
    client_raw_bytes c1 = client_raw_bytes c2 →
    client_raw_bytes (encode_calls c1 l) = client_raw_bytes (encode_calls c2 l) ∧
    output_ok (encode_calls c1 l) ∧ output_ok (encode_calls c2 l) := by
  intro l
  induction l with
  | nil => intro c1 c2 h1 h2 _ h; exact ⟨h, h1, h2⟩
  | cons e l ih =>
    intro c1 c2 h1 h2 hl h
    obtain ⟨k1, e1⟩ := encode_call_run_raw c1 e h1 (hl e (by simp))
    obtain ⟨k2, e2⟩ := encode_call_run_raw c2 e h2 (hl e (by simp))
    exact ih (e.run c1) (e.run c2) k1 k2 (fun x hx => hl x (by simp [hx])) (by rw [e1, e2, h])

theorem client_raw_bytes_length (c : client) (h : output_ok c) :
    (client_raw_bytes c).length = c.output_len := by
  obtain ⟨h1, h2⟩ := h
  unfold client_raw_bytes
  rw [List.length_take]
  omega

/-! ## The session loop -/

/-- The input side of a client: buffer, cursor, length, capacity. -/
theorem client_output_require_input (c : client) (siz : Nat) :
    (client_output_require c siz).buf = c.buf ∧
    (client_output_require c siz).buf_idx = c.buf_idx ∧
    (client_output_require c siz).buf_len = c.buf_len ∧
    (client_output_require c siz).buf_cap = c.buf_cap := by
  unfold client_output_require
  split <;> exact ⟨rfl, rfl, rfl, rfl⟩

theorem client_write_input (c : client) (data : List Nat) (n : Nat) :
    (client_write c data n).buf = c.buf ∧ (client_write c data n).buf_idx = c.buf_idx ∧
    (client_write c data n).buf_len = c.buf_len ∧ (client_write c data n).buf_cap = c.buf_cap :=
  client_output_require_input c (c.output_len + n)

theorem client_write_byte_input (c : client) (b : Nat) :
    (client_write_byte c b).buf = c.buf ∧ (client_write_byte c b).buf_idx = c.buf_idx ∧
    (client_write_byte c b).buf_len = c.buf_len ∧ (client_write_byte c b).buf_cap = c.buf_cap :=
  client_output_require_input c (c.output_len + 1)

theorem client_write_error_input (c : client) (err : String) :
    (client_write_error c err).buf = c.buf ∧ (client_write_error c err).buf_idx = c.buf_idx ∧
    (client_write_error c err).buf_len = c.buf_len ∧
    (client_write_error c err).buf_cap = c.buf_cap := by
  unfold client_write_error
  simp only
  obtain ⟨a1, a2, a3, a4⟩ := client_write_input c (string_bytes "-ERR ") 5
  obtain ⟨b1, b2, b3, b4⟩ := client_write_input (client_write c (string_bytes "-ERR ") 5)
    (string_bytes err) (strlen (string_bytes err))
  obtain ⟨c1, c2, c3, c4⟩ := client_write_byte_input
    (client_write (client_write c (string_bytes "-ERR ") 5)
      (string_bytes err) (strlen (string_bytes err))) 13
  obtain ⟨d1, d2, d3, d4⟩ := client_write_byte_input (client_write_byte
    (client_write (client_write c (string_bytes "-ERR ") 5)
      (string_bytes err) (strlen (string_bytes err))) 13) 10
  exact ⟨d1.trans (c1.trans (b1.trans a1)), d2.trans (c2.trans (b2.trans a2)),
    d3.trans (c3.trans (b3.trans a3)), d4.trans (c4.trans (b4.trans a4))⟩

/-- The error reply of `client_run` (clear, encode the error, flush): exactly
`-ERR <message>\r\n` is sent, whatever the output buffer held, and the output
length ends at 0; the input buffer and the transport are not touched. -/
theorem reply_error_sent (s : session) (err : String)
    (hc : s.c.output.length = s.c.output_cap) :
    (reply_error s err).sent = s.sent ++ (string_bytes "-ERR " ++ (c_string err ++ [13, 10])) ∧
    (reply_error s err).c.output_len = 0 ∧
    (reply_error s err).transport = s.transport ∧
    unconsumed (reply_error s err).c = unconsumed s.c := by
  have h1 : output_ok (client_clear s.c) := ⟨hc, Nat.zero_le _⟩
  obtain ⟨k1, e1, l1⟩ := client_write_error_raw (client_clear s.c) err h1
  obtain ⟨i1, i2, i3, _⟩ := client_write_error_input (client_clear s.c) err
  have hraw0 : client_raw_bytes (client_clear s.c) = [] := by
    simp [client_raw_bytes, client_clear]
  have hlen0 : (client_clear s.c).output_len = 0 := rfl
  rw [hraw0, List.nil_append] at e1
  rw [hlen0, Nat.zero_add] at l1
  have hpos : ¬ (((client_write_error (client_clear s.c) err).output_len : Int) -
      ((0 : Nat) : Int) ≤ 0) := by
    rw [l1]; push_cast; omega
  unfold reply_error client_flush client_flush_offset
  simp only [hpos, if_false, true_and]
  refine ⟨?_, ?_⟩
  · have : (client_write_error (client_clear s.c) err).output.drop 0 =
        (client_write_error (client_clear s.c) err).output := rfl
    rw [this, Nat.sub_zero]
    show s.sent ++ client_raw_bytes (client_write_error (client_clear s.c) err) = _
    rw [e1]
  · show (List.drop (client_write_error (client_clear s.c) err).buf_idx
        (client_write_error (client_clear s.c) err).buf).take
        (client_write_error (client_clear s.c) err).buf_len = _
    rw [i1, i2, i3]
    rfl

/-- The function `read_command` does not touch the output buffer. -/
theorem read_command_output (c : client) (t : List segment) :
    (read_command c t).2.1.output = c.output ∧
    (read_command c t).2.1.output_len = c.output_len ∧
    (read_command c t).2.1.output_cap = c.output_cap :=
  client_read_command_output _ c t

/-- The read at the end of the stream, issued after an incomplete parse. -/
theorem read_command_eof (c : client) (h : (client_parse_command c).1 = some err_incomplete) :
    read_command c [] =
      (if (client_parse_command c).2.buf_len > 0 then
        (some "Protocol error: incomplete command", input_grow (client_parse_command c).2, [])
       else (some "eof", input_grow (client_parse_command c).2, [])) := by
  unfold read_command
  rw [show transport_weight [] + 1 = 0 + 1 from rfl, client_read_command_succ]
  cases hq : client_parse_command c with
  | mk e c1 =>
    rw [hq] at h
    simp only at h
    subst h
    simp only [ne_eq, not_true_eq_false, if_false, client_read_nil]
    rw [(input_grow_output c1).2.2.2.1]

theorem client_parse_command_empty (c : client) (h : c.buf_len = 0) :
    client_parse_command c = (some err_incomplete, { c with args := [] }) := by
  unfold client_parse_command
  simp only
  rw [if_pos (by omega)]

/-! # The claims -/

set_option maxRecDepth 100000

/-- Claim C1, at the failing input.  The empty argument vector is encoded by
`client_write_multibulk(c, 0)` as `*0\r\n`; `client_parse_command` on a buffer
holding exactly these four bytes returns "incomplete", not success with zero
arguments, and consumes nothing. -/
theorem roundtrip_empty_vector_incomplete :
    client_raw_bytes (client_write_request client_new []) = [42, 48, 13, 10] ∧
    client_parse_command
        (client_with_input [] (client_raw_bytes (client_write_request client_new [])) []) =
      (some err_incomplete, client_with_input [] [42, 48, 13, 10] []) := by
  decide

/-- Claim C2, at the failing input.  The request `*1\r\n$10\r\n0123456789\r\n`
parsed in one piece gives the argument `0123456789`.  Read by
`client_read_command` from a fresh client, the transport holding the whole
request, the reads are bounded by the free space of the buffer (1, 1, 2, 4
bytes); the parse attempt after the fourth read sees `*1\r\n$10\r`, returns
success with an empty argument vector and releases the eight bytes. -/
theorem read_command_split_in_length_header :
    (client_parse_command (client_with_input []
        (multibulk_request [[48, 49, 50, 51, 52, 53, 54, 55, 56, 57]]) [])).1 = none ∧
    client_arg_values (multibulk_request [[48, 49, 50, 51, 52, 53, 54, 55, 56, 57]])
      (client_parse_command (client_with_input []
        (multibulk_request [[48, 49, 50, 51, 52, 53, 54, 55, 56, 57]]) [])).2 =
      [[48, 49, 50, 51, 52, 53, 54, 55, 56, 57]] ∧
    (client_read_command 8 client_new
        [.data (multibulk_request [[48, 49, 50, 51, 52, 53, 54, 55, 56, 57]])]).1 = none ∧
    (client_read_command 8 client_new
        [.data (multibulk_request [[48, 49, 50, 51, 52, 53, 54, 55, 56, 57]])]).2.1.args = [] ∧
    (client_read_command 8 client_new
        [.data (multibulk_request [[48, 49, 50, 51, 52, 53, 54, 55, 56, 57]])]).2.1.buf
      = [42, 49, 13, 10, 36, 49, 48, 13] ∧
    (client_read_command 8 client_new
        [.data (multibulk_request [[48, 49, 50, 51, 52, 53, 54, 55, 56, 57]])]).2.1.buf_len = 0
    := by
  decide

/-- Claim C3, at the failing input.  `*1\r\n$3` is a proper prefix of the
request `*1\r\n$3\r\nabc\r\n`, cut inside the `$<len>` header of its last
element; `client_parse_command` returns success (no error, empty argument
vector, all six bytes released), not "incomplete". -/
theorem truncated_length_header_completes :
    (multibulk_request [[97, 98, 99]]).take 6 = [42, 49, 13, 10, 36, 51] ∧
    (multibulk_request [[97, 98, 99]]).take 6 ≠ multibulk_request [[97, 98, 99]] ∧
    client_parse_command (client_with_input [] ((multibulk_request [[97, 98, 99]]).take 6) []) =
      (none, { client_with_input [] [42, 49, 13, 10, 36, 51] [] with buf_len := 0 }) := by
  decide

/-- Claim C4, at the failing input.  On `*2\r\n$1\r\na\r\n$1` the header
declares two elements (`atoi` of its text is 2) and `client_parse_command`
returns success with one argument. -/
theorem declared_count_not_reached :
    atoi ([50] ++ [0]) = 2 ∧
    (client_parse_command
      (client_with_input [] [42, 50, 13, 10, 36, 49, 13, 10, 97, 13, 10, 36, 49] [])).1 = none ∧
    client_argc (client_parse_command
      (client_with_input [] [42, 50, 13, 10, 36, 49, 13, 10, 97, 13, 10, 36, 49] [])).2 = 1 := by
  decide

/-- Claim C5.  Inline quoting: a line of tokens, each a bare word (not empty, no
space, quote, `\r` or `\n`) or a quoted string without its own quote in its
content, every token but the last followed by one or more spaces and the last
by `\n`, the first byte of the line not being `*`: `client_parse_command`
returns success, the argument vector holds exactly the token contents in
order, quotes excluded, the buffer bytes are unchanged and what follows the
line is left unconsumed. -/
theorem inline_tokens_parse (c : client) (pre : List (token × Nat)) (last : token)
    (t : List Nat) (hwf : ∀ p ∈ pre, p.1.wf) (hlast : last.wf)
    (hstar : (inline_line pre last).getD 0 0 ≠ 42)
    (hb : c.buf_idx + c.buf_len ≤ c.buf.length)
    (hu : unconsumed c = inline_line pre last ++ t) :
    (client_parse_command c).1 = none ∧
    (client_parse_command c).2.buf = c.buf ∧
    client_arg_values c.buf (client_parse_command c).2 =
      pre.map (fun p => p.1.value) ++ [last.value] ∧
    unconsumed (client_parse_command c).2 = t := by
  obtain ⟨hl, post, hv⟩ := unconsumed_view c _ hb hu
  have hne : inline_line pre last ++ t ≠ [] := by simp [inline_line]
  have hne2 : 0 < (inline_line pre last).length := by simp [inline_line]
  obtain ⟨hpos, hhead⟩ := unconsumed_head c _ hb hu hne
  rw [getD_append_lt _ _ _ hne2] at hhead
  rw [client_parse_command_inline c hpos (by rw [hhead]; exact hstar),
    client_parse_telnet_command_line c pre last t hwf hlast hb hu]
  simp only [List.length_append] at hl
  have hv' : c.buf.drop c.buf_idx = inline_line pre last ++ (t ++ post) := by
    rw [hv]; simp
  have hrel := release_view (append_args { c with args := [] }
      (inline_spans c.buf_idx pre ++ [last.span (c.buf_idx + (inline_tokens pre).length)]))
    (inline_line pre last) t post (by simpa using hv') (by simpa using hl.symm)
  simp only [append_args_buf_idx] at hrel
  refine ⟨rfl, by simp, ?_, hrel.1⟩
  simp only [client_arg_values, release_args, append_args_args, List.nil_append,
    List.map_append, List.map_cons, List.map_nil]
  have hv0 : c.buf.drop c.buf_idx = inline_tokens pre ++ (last.render ++ (10 :: (t ++ post)))
      := by rw [hv]; simp [inline_line]
  rw [inline_spans_values c.buf pre _ _ hv0,
    token_span_value c.buf _ last _ (drop_view_add hv0)]


/-- The line `GET "hello world" 'x y'\n` of the claim. -/
theorem inline_tokens_parse_witness :
    client_arg_values
      (client_with_input [7]
        (inline_line [(.bare [71, 69, 84], 0),
          (.quoted 34 [104, 101, 108, 108, 111, 32, 119, 111, 114, 108, 100], 0)]
          (.quoted 39 [120, 32, 121]) ++ []) [0]).buf
      (client_parse_command (client_with_input [7]
        (inline_line [(.bare [71, 69, 84], 0),
          (.quoted 34 [104, 101, 108, 108, 111, 32, 119, 111, 114, 108, 100], 0)]
          (.quoted 39 [120, 32, 121]) ++ []) [0])).2 =
      [[71, 69, 84], [104, 101, 108, 108, 111, 32, 119, 111, 114, 108, 100], [120, 32, 121]] :=
  (inline_tokens_parse (client_with_input [7]
        (inline_line [(.bare [71, 69, 84], 0),
          (.quoted 34 [104, 101, 108, 108, 111, 32, 119, 111, 114, 108, 100], 0)]
          (.quoted 39 [120, 32, 121]) ++ []) [0])
    [(.bare [71, 69, 84], 0),
      (.quoted 34 [104, 101, 108, 108, 111, 32, 119, 111, 114, 108, 100], 0)]
    (.quoted 39 [120, 32, 121]) [] (by decide) (by decide) (by decide) (by decide)
    (by decide)).2.2.1

/-- Claim C6 as stated fails: on `SET "abc\n` the parser returns "incomplete",
not the error "unbalanced quotes in request". -/
theorem unbalanced_quote_counterexample :
    (client_parse_command
      (client_with_input [] [83, 69, 84, 32, 34, 97, 98, 99, 10] [])).1 = some err_incomplete ∧
    (client_parse_command
      (client_with_input [] [83, 69, 84, 32, 34, 97, 98, 99, 10] [])).1 ≠ some err_unbalanced := by
  decide

/-- Claim C6, amended.  When the buffered bytes are well-formed tokens followed
by spaces and then a token that opens with a single or double quote whose
matching quote occurs nowhere in the rest of the buffered bytes (a `\n` in
that rest included), `client_parse_command` returns "incomplete" and leaves
buffer, cursor and length as they were. -/
theorem unclosed_quote_is_incomplete (c : client) (pre : List (token × Nat)) (q : Nat)
    (w : List Nat) (hwf : ∀ p ∈ pre, p.1.wf) (hq : q = 39 ∨ q = 34) (hqw : q ∉ w)
    (hstar : (inline_tokens pre ++ q :: w).getD 0 0 ≠ 42)
    (hb : c.buf_idx + c.buf_len ≤ c.buf.length)
    (hu : unconsumed c = inline_tokens pre ++ q :: w) :
    (client_parse_command c).1 = some err_incomplete ∧
    (client_parse_command c).2.buf = c.buf ∧
    (client_parse_command c).2.buf_idx = c.buf_idx ∧
    (client_parse_command c).2.buf_len = c.buf_len := by
  obtain ⟨hl, post, hv⟩ := unconsumed_view c _ hb hu
  have hne : inline_tokens pre ++ q :: w ≠ [] := by simp
  obtain ⟨hpos, hhead⟩ := unconsumed_head c _ hb hu hne
  simp only [List.length_append, List.length_cons] at hl
  have hv0 : c.buf.drop c.buf_idx = inline_tokens pre ++ (q :: (w ++ post)) := by
    rw [hv]; simp
  have hv1 : c.buf.drop (c.buf_idx + (inline_tokens pre).length) = q :: (w ++ post) :=
    drop_view_add hv0
  have hqb : c.buf.getD (c.buf_idx + (inline_tokens pre).length) 0 = q := by
    have := getD_of_view hv1 0; simpa using this
  have hv2 : c.buf.drop (c.buf_idx + (inline_tokens pre).length + 1) = w ++ post := by
    have := drop_view_add (l := [q]) (by simpa using hv1)
    simpa using this
  have hres : client_parse_command c = (some err_incomplete,
      append_args { c with args := [] } (inline_spans c.buf_idx pre)) := by
    rw [client_parse_command_inline c hpos (by rw [hhead]; exact hstar)]
    unfold client_parse_telnet_command
    simp only
    rw [if_neg (by omega),
      telnet_tokens (c.buf_len + c.buf_idx) c.buf_idx pre c.buf_idx { c with args := [] } _ hwf
        hv0 (by omega)]
    apply telnet_step_quoted_open
    · omega
    · simp only [append_args_buf]
      rw [hqb]; exact hq
    · intro j hj
      simp only [append_args_buf]
      rw [hqb, getD_of_view hv2, getD_append_lt _ _ _ (by omega)]
      intro hm
      exact hqw (hm ▸ getD_mem w j (by omega))
  rw [hres]
  exact ⟨rfl, by simp, by simp, by simp⟩

/-- The amended claim at `GET 'x y\n`. -/
theorem unclosed_quote_is_incomplete_witness :
    (client_parse_command (client_with_input [7]
      (inline_tokens [(.bare [71, 69, 84], 1)] ++ 39 :: [120, 32, 121, 10]) [0])).1
      = some err_incomplete :=
  (unclosed_quote_is_incomplete (client_with_input [7]
      (inline_tokens [(.bare [71, 69, 84], 1)] ++ 39 :: [120, 32, 121, 10]) [0])
    [(.bare [71, 69, 84], 1)] 39 [120, 32, 121, 10] (by decide) (by decide) (by decide)
    (by decide) (by decide) (by decide)).1

/-- Claim C7, at the failing input.  The line `"abc"` terminated by `\n` gives
the argument vector `["abc"]`; terminated by `\r\n` it gives `["abc", ""]`: the
`\r` opens a token of its own, which line 218 then cuts to length 0 and line
223 appends.  The same happens after a trailing space (`GET \r\n`). -/
theorem crlf_adds_empty_argument :
    (client_parse_command (client_with_input [] [34, 97, 98, 99, 34, 10] [])).1 = none ∧
    client_arg_values [34, 97, 98, 99, 34, 10]
      (client_parse_command (client_with_input [] [34, 97, 98, 99, 34, 10] [])).2
      = [[97, 98, 99]] ∧
    (client_parse_command (client_with_input [] [34, 97, 98, 99, 34, 13, 10] [])).1 = none ∧
    client_arg_values [34, 97, 98, 99, 34, 13, 10]
      (client_parse_command (client_with_input [] [34, 97, 98, 99, 34, 13, 10] [])).2
      = [[97, 98, 99], []] ∧
    client_arg_values [71, 69, 84, 32, 10]
      (client_parse_command (client_with_input [] [71, 69, 84, 32, 10] [])).2
      = [[71, 69, 84]] ∧
    client_arg_values [71, 69, 84, 32, 13, 10]
      (client_parse_command (client_with_input [] [71, 69, 84, 32, 13, 10] [])).2
      = [[71, 69, 84], []] := by
  decide

/-- Claim C8 as stated fails: on the blank line `\n` the parser returns success
with an empty argument vector, not "incomplete". -/
theorem blank_line_counterexample :
    (client_parse_command (client_with_input [] [10] [])).1 = none ∧
    (client_parse_command (client_with_input [] [10] [])).1 ≠ some err_incomplete ∧
    (client_parse_command (client_with_input [] [10] [])).2.args = [] := by
  decide

/-- Claim C8, amended.  When the unconsumed bytes start with a line without
tokens (zero or more spaces, then `\n`), `client_parse_command` returns
success with an empty argument vector, releases the line and leaves what
follows it unconsumed. -/
theorem blank_line_is_empty_command (c : client) (n : Nat) (t : List Nat)
    (hb : c.buf_idx + c.buf_len ≤ c.buf.length)
    (hu : unconsumed c = List.replicate n 32 ++ 10 :: t) :
    (client_parse_command c).1 = none ∧
    (client_parse_command c).2.args = [] ∧
    (client_parse_command c).2.buf = c.buf ∧
    unconsumed (client_parse_command c).2 = t := by
  obtain ⟨hl, post, hv⟩ := unconsumed_view c _ hb hu
  have hne : List.replicate n 32 ++ 10 :: t ≠ [] := by simp
  obtain ⟨hpos, hhead⟩ := unconsumed_head c _ hb hu hne
  have hstar : c.buf.getD c.buf_idx 0 ≠ 42 := by
    rw [hhead]
    cases n with
    | zero => simp
    | succ n => simp [List.replicate_succ]
  simp only [List.length_append, List.length_replicate, List.length_cons] at hl
  have hv0 : c.buf.drop c.buf_idx = List.replicate n 32 ++ (10 :: (t ++ post)) := by
    rw [hv]; simp
  have hlf : c.buf.getD (c.buf_idx + n) 0 = 10 := by
    rw [getD_of_view hv0]
    have := getD_append_add (List.replicate n 32) (10 :: (t ++ post)) 0
    simpa using this
  have hres : client_parse_command c =
      (none, release { c with args := [] } (c.buf_idx + n + 1)) := by
    rw [client_parse_command_inline c hpos hstar]
    unfold client_parse_telnet_command
    simp only
    rw [if_neg (by omega),
      telnet_run_spaces (c.buf_len + c.buf_idx) c.buf_idx { c with args := [] } n c.buf_idx _
        hv0 (by omega),
      telnet_step_lf (c.buf_len + c.buf_idx) _ c.buf_idx true { c with args := [] } (by omega)
        hlf]
    rfl
  rw [hres]
  have hv1 : c.buf.drop c.buf_idx = (List.replicate n 32 ++ [10]) ++ (t ++ post) := by
    rw [hv]; simp
  have hrel := release_view { c with args := [] } (List.replicate n 32 ++ [10]) t post hv1
    (by simp; omega)
  simp only [List.length_append, List.length_replicate, List.length_singleton,
    ← Nat.add_assoc] at hrel
  exact ⟨rfl, by simp, by simp, hrel.1⟩

/-- The amended claim at two spaces, `\n`, and a following `A`. -/
theorem blank_line_is_empty_command_witness :
    (client_parse_command (client_with_input [7] (List.replicate 2 32 ++ 10 :: [65]) [0])).1
      = none ∧
    (client_parse_command (client_with_input [7] (List.replicate 2 32 ++ 10 :: [65]) [0])).2.args
      = [] ∧
    unconsumed
      (client_parse_command (client_with_input [7] (List.replicate 2 32 ++ 10 :: [65]) [0])).2
      = [65] :=
  have h := blank_line_is_empty_command
    (client_with_input [7] (List.replicate 2 32 ++ 10 :: [65]) [0]) 2 [65] (by decide) (by decide)
  ⟨h.1, h.2.1, h.2.2.2⟩

/-- Claim C9, at the failing input.  On `*x\r\nA` the count text `x` is no
decimal integer, yet `client_parse_command` returns success with an empty
argument vector and releases the four header bytes, as it does for the count
text `0`; the count text `-` is accepted in the same way.  The empty
count text, `xy` and `00` are rejected with "invalid multibulk length": the
zero that `atoi` gives for a text without digits is told from the literal `0`
by the length of the text alone (line 293).  The count text `1x` is read as 1:
`*1x\r\n$1\r\na\r\n` gives the one argument `a`. -/
theorem one_character_count_accepted :
    isdigit 120 = false ∧
    (client_parse_command (client_with_input [] [42, 120, 13, 10, 65] [])).1 = none ∧
    (client_parse_command (client_with_input [] [42, 120, 13, 10, 65] [])).2.args = [] ∧
    unconsumed (client_parse_command (client_with_input [] [42, 120, 13, 10, 65] [])).2 = [65] ∧
    (client_parse_command (client_with_input [] [42, 48, 13, 10, 65] [])).1 = none ∧
    (client_parse_command (client_with_input [] [42, 48, 13, 10, 65] [])).2.args = [] ∧
    (client_parse_command (client_with_input [] [42, 45, 13, 10, 65] [])).1 = none ∧
    (client_parse_command (client_with_input [] [42, 45, 13, 10, 65] [])).2.args = [] ∧
    (client_parse_command (client_with_input [] [42, 13, 10, 65] [])).1 =
      some err_multibulk_length ∧
    (client_parse_command (client_with_input [] [42, 120, 121, 13, 10, 65] [])).1 =
      some err_multibulk_length ∧
    (client_parse_command (client_with_input [] [42, 48, 48, 13, 10, 65] [])).1 =
      some err_multibulk_length ∧
    (client_parse_command (client_with_input []
      [42, 49, 120, 13, 10, 36, 49, 13, 10, 97, 13, 10] [])).1 = none ∧
    client_arg_values [42, 49, 120, 13, 10, 36, 49, 13, 10, 97, 13, 10]
      (client_parse_command (client_with_input []
        [42, 49, 120, 13, 10, 36, 49, 13, 10, 97, 13, 10] [])).2 = [[97]] := by
  decide

/-- Claim C10.  Exact consumption on success: when the unconsumed bytes are a
well-formed multibulk request `r` of at least one argument (count and lengths
within `int`) followed by any bytes `t`, `client_parse_command` returns
success, the argument vector holds the arguments of `r`, the buffer bytes are
unchanged, exactly `t` is left unconsumed, the new length is `|t|`, the cursor
has advanced by `|r|` when `t` is not empty and is back at 0 when it is. -/
theorem multibulk_exact_consumption (c : client) (args : List (List Nat)) (t : List Nat)
    (hne : args ≠ []) (hcount : args.length < 2147483648)
    (hlen : ∀ a ∈ args, a.length < 2147483648)
    (hb : c.buf_idx + c.buf_len ≤ c.buf.length)
    (hu : unconsumed c = multibulk_request args ++ t) :
    (client_parse_command c).1 = none ∧
    (client_parse_command c).2.buf = c.buf ∧
    client_arg_values c.buf (client_parse_command c).2 = args ∧
    unconsumed (client_parse_command c).2 = t ∧
    (client_parse_command c).2.buf_len = t.length ∧
    (t ≠ [] →
      (client_parse_command c).2.buf_idx = c.buf_idx + (multibulk_request args).length) ∧
    (t = [] → (client_parse_command c).2.buf_idx = 0) := by
  obtain ⟨hl, post, hv⟩ := unconsumed_view c _ hb hu
  have hval := client_parse_command_request_values c args t hne hcount hlen hb hu
  rw [client_parse_command_request c args t hne hcount hlen hb hu] at hval ⊢
  simp only [List.length_append] at hl
  have hv' : c.buf.drop c.buf_idx = multibulk_request args ++ (t ++ post) := by
    rw [hv]; simp
  have hrel := release_view (append_args { c with args := [] }
      (bulk_spans (c.buf_idx + 1 + (utoa args.length).length + 2) args))
    (multibulk_request args) t post (by simpa using hv') (by simpa using hl.symm)
  simp only [append_args_buf_idx] at hrel
  obtain ⟨h1, h2, h3, h4⟩ := hrel
  exact ⟨rfl, by simp, hval, h1, h2, h3, h4⟩

/-- The request of `abc` and the empty string, followed by one more byte, in a
buffer with two consumed bytes before it. -/
theorem multibulk_exact_consumption_witness :
    (client_parse_command (client_with_input [7, 7]
      (multibulk_request [[97, 98, 99], []] ++ [71]) [0, 0])).1 = none ∧
    client_arg_values (client_with_input [7, 7]
        (multibulk_request [[97, 98, 99], []] ++ [71]) [0, 0]).buf
      (client_parse_command (client_with_input [7, 7]
        (multibulk_request [[97, 98, 99], []] ++ [71]) [0, 0])).2 = [[97, 98, 99], []] ∧
    unconsumed (client_parse_command (client_with_input [7, 7]
      (multibulk_request [[97, 98, 99], []] ++ [71]) [0, 0])).2 = [71] :=
  have h := multibulk_exact_consumption (client_with_input [7, 7]
    (multibulk_request [[97, 98, 99], []] ++ [71]) [0, 0]) [[97, 98, 99], []] [71]
    (by decide) (by decide) (by decide) (by decide) (by decide)
  ⟨h.1, h.2.2.1, h.2.2.2.1⟩

/-- Claim C11.  EOF handling.  When the read of `client_run` meets the end of
the stream with no unconsumed byte in the input buffer, `client_run` returns
no error and sends nothing.  When it meets it after an incomplete parse of at
least one unconsumed byte, `client_run` sends exactly
`-ERR Protocol error: incomplete command\r\n` and returns that error. -/
theorem eof_handling (exec_command : session → error × session) (fuel : Nat)
    (sa : session) (hta : sa.transport = []) (hla : sa.c.buf_len = 0)
    (sb : session) (htb : sb.transport = []) (hlb : 0 < sb.c.buf_len)
    (hpb : (client_parse_command sb.c).1 = some err_incomplete)
    (hob : sb.c.output.length = sb.c.output_cap) :
    (∃ s2, client_run exec_command (fuel + 1) sa = some (none, s2) ∧ s2.sent = sa.sent) ∧
    (∃ s2, client_run exec_command (fuel + 1) sb =
        some (some "Protocol error: incomplete command", s2) ∧
      s2.sent = sb.sent ++ string_bytes "-ERR Protocol error: incomplete command\r\n" ∧
      s2.c.output_len = 0) := by
  constructor
  · have hp := client_parse_command_empty sa.c hla
    have hr := read_command_eof sa.c (by rw [hp])
    rw [hp] at hr
    simp only at hr
    rw [if_neg (by show ¬ sa.c.buf_len > 0; omega)] at hr
    refine ⟨{ sa with c := input_grow { sa.c with args := [] }, transport := [] }, ?_, rfl⟩
    rw [client_run, hta, hr]
    simp only [if_true]
  · have hr := read_command_eof sb.c hpb
    have hlen : (client_parse_command sb.c).2.buf_len = sb.c.buf_len :=
      ((client_parse_command_post sb.c).1 (by rw [hpb]; simp)).2.1
    rw [if_pos (by rw [hlen]; exact hlb)] at hr
    have ho := client_parse_command_output sb.c
    have hg := input_grow_output (client_parse_command sb.c).2
    have hc : (input_grow (client_parse_command sb.c).2).output.length =
        (input_grow (client_parse_command sb.c).2).output_cap := by
      rw [hg.1, hg.2.2.1, ho.1, ho.2.2]; exact hob
    obtain ⟨r1, r2, _, _⟩ := reply_error_sent
      { sb with c := input_grow (client_parse_command sb.c).2, transport := [] }
      "Protocol error: incomplete command" hc
    refine ⟨_, ?_, ?_, r2⟩
    · rw [client_run, htb, hr]
      simp only
      rw [if_neg (by decide)]
    · rw [r1]
      have : string_bytes "-ERR " ++ (c_string "Protocol error: incomplete command" ++ [13, 10])
          = string_bytes "-ERR Protocol error: incomplete command\r\n" := by decide
      rw [this]

/-- The end of the stream on a fresh client, and on a client that holds `GET`
with no line end. -/
theorem eof_handling_witness :
    (∃ s2, client_run (fun s => (none, s)) 1 ⟨client_new, [], [1]⟩ = some (none, s2) ∧
      s2.sent = [1]) ∧
    (∃ s2, client_run (fun s => (none, s)) 1
        ⟨client_with_input [7] [71, 69, 84] [0], [], [2]⟩ =
        some (some "Protocol error: incomplete command", s2) ∧
      s2.sent = [2] ++ string_bytes "-ERR Protocol error: incomplete command\r\n" ∧
      s2.c.output_len = 0) :=
  eof_handling (fun s => (none, s)) 0 ⟨client_new, [], [1]⟩ (by decide) (by decide)
    ⟨client_with_input [7] [71, 69, 84] [0], [], [2]⟩ (by decide) (by decide) (by decide)
    (by decide)

/-- Claim C12.  Error-reporting discipline of the session loop.  When
`client_read_command` returns an error `e` other than "eof", `client_run`
sends exactly `-ERR ` ++ `e` ++ `\r\n`, whatever the output buffer held (it is
allocated to its capacity), leaves the output length at 0 and returns `e`.
When the command is read and the dispatch call `exec_command` returns an error
`e`, `client_run` sends exactly `-ERR ` ++ `e` ++ `\r\n` after what the
dispatch call sent, leaves the output length at 0 and goes on with the loop
on the same input and transport. -/
theorem error_reporting_discipline (exec_command : session → error × session) (fuel : Nat)
    (sa : session) (ea : String)
    (hra : (read_command sa.c sa.transport).1 = some ea) (hne : ea ≠ "eof")
    (hoa : sa.c.output.length = sa.c.output_cap)
    (sb : session) (eb : String) (s1 : session)
    (hrb : (read_command sb.c sb.transport).1 = none)
    (hex : exec_command { sb with c := (read_command sb.c sb.transport).2.1,
                                  transport := (read_command sb.c sb.transport).2.2 }
      = (some eb, s1))
    (hob : s1.c.output.length = s1.c.output_cap) :
    (∃ s2, client_run exec_command (fuel + 1) sa = some (some ea, s2) ∧
      s2.sent = sa.sent ++ (string_bytes "-ERR " ++ (c_string ea ++ [13, 10])) ∧
      s2.c.output_len = 0) ∧
    (∃ s2, client_run exec_command (fuel + 1) sb = client_run exec_command fuel s2 ∧
      s2.sent = s1.sent ++ (string_bytes "-ERR " ++ (c_string eb ++ [13, 10])) ∧
      s2.c.output_len = 0 ∧ s2.transport = s1.transport ∧
      unconsumed s2.c = unconsumed s1.c) := by
  constructor
  · have ho := read_command_output sa.c sa.transport
    cases hq : read_command sa.c sa.transport with
    | mk e r =>
      obtain ⟨ca, ta⟩ := r
      rw [hq] at ho hra
      simp only at ho hra
      subst hra
      have hc : ca.output.length = ca.output_cap := by rw [ho.1, ho.2.2]; exact hoa
      obtain ⟨r1, r2, _, _⟩ := reply_error_sent { sa with c := ca, transport := ta } ea hc
      refine ⟨reply_error { sa with c := ca, transport := ta } ea, ?_, r1, r2⟩
      rw [client_run, hq]
      simp only [hne, if_false]
  · obtain ⟨r1, r2, r3, r4⟩ := reply_error_sent s1 eb hob
    refine ⟨reply_error s1 eb, ?_, r1, r2, r3, r4⟩
    cases hq : read_command sb.c sb.transport with
    | mk e r =>
      obtain ⟨cb, tb⟩ := r
      rw [hq] at hrb hex
      simp only at hrb hex
      subst hrb
      rw [client_run, hq]
      simp only [hex]

/-- A parser error (`*-1\r\n` read from the transport, 7 bytes pending in the
output buffer) ends the loop after the reply; a dispatch error (`GET\n` read,
the dispatch call returning "unknown command") is replied to and the loop goes on. -/
theorem error_reporting_discipline_witness :
    (∃ s2, client_run (fun s => (some "unknown command", s)) 1
        ⟨client_write client_new [43, 79, 75, 13, 10] 5, [.data [42, 45, 49, 13, 10]], [1]⟩ =
        some (some "Protocol error: invalid multibulk length", s2) ∧
      s2.sent = [1] ++ (string_bytes "-ERR " ++
        (c_string "Protocol error: invalid multibulk length" ++ [13, 10])) ∧
      s2.c.output_len = 0) ∧
    (∃ s2, client_run (fun s => (some "unknown command", s)) 1
        ⟨client_new, [.data [71, 69, 84, 10]], [2]⟩ =
        client_run (fun s => (some "unknown command", s)) 0 s2 ∧
      s2.sent = [2] ++ (string_bytes "-ERR " ++ (c_string "unknown command" ++ [13, 10])) ∧
      s2.c.output_len = 0) :=
  have h := error_reporting_discipline (fun s => (some "unknown command", s)) 0
    ⟨client_write client_new [43, 79, 75, 13, 10] 5, [.data [42, 45, 49, 13, 10]], [1]⟩
    "Protocol error: invalid multibulk length" (by decide) (by decide) (by decide)
    ⟨client_new, [.data [71, 69, 84, 10]], [2]⟩ "unknown command" _ (by decide) rfl
    (by decide)
  ⟨h.1, h.2.imp fun _ hs => ⟨hs.1, hs.2.1, hs.2.2.1⟩⟩

/-- Claim C15.  Bulk reply wire format: for an output buffer that holds the
pending bytes `P` (allocated to its capacity, length within it) and a byte
string `d` of length `n`, `client_write_bulk(d, n)` leaves the pending output
`P ++ $ ++ decimal(n) ++ \r\n ++ d ++ \r\n`; the output length has grown by
exactly the number of bytes appended and the capacity is at least the length. -/
theorem bulk_reply_wire_format (c : client) (d : List Nat) (h : output_ok c) :
    client_raw_bytes (client_write_bulk c d d.length) =
      client_raw_bytes c ++ (36 :: (utoa d.length ++ 13 :: 10 :: (d ++ [13, 10]))) ∧
    (client_write_bulk c d d.length).output_len =
      c.output_len + (36 :: (utoa d.length ++ 13 :: 10 :: (d ++ [13, 10]))).length ∧
    (client_write_bulk c d d.length).output_len ≤ (client_write_bulk c d d.length).output_cap ∧
    (client_write_bulk c d d.length).output.length =
      (client_write_bulk c d d.length).output_cap := by
  obtain ⟨⟨k1, k2⟩, e1, l1⟩ := client_write_bulk_raw c d h
  refine ⟨?_, ?_, k2, k1⟩
  · rw [e1, bulk_bytes, sprintf_d_nat]
  · rw [l1, bulk_bytes, sprintf_d_nat]

/-- The reply `$3\r\nabc\r\n` appended to a pending `+OK\r\n`. -/
theorem bulk_reply_wire_format_witness :
    client_raw_bytes (client_write_bulk (client_write client_new [43, 79, 75, 13, 10] 5)
        [97, 98, 99] 3) =
      [43, 79, 75, 13, 10] ++ (36 :: ([51] ++ 13 :: 10 :: ([97, 98, 99] ++ [13, 10]))) :=
  (bulk_reply_wire_format (client_write client_new [43, 79, 75, 13, 10] 5) [97, 98, 99]
    ⟨by decide, by decide⟩).1

/-- Claim C16.  Clear makes the output buffer behave as fresh: for every client
whose output buffer is allocated to its capacity and every sequence of encode
calls (`client_write`, `client_write_bulk`, `client_write_multibulk`,
`client_write_int`, `client_write_error`, each reading its `n` bytes inside its
data), `client_clear` followed by the sequence leaves the same pending output
bytes `[0, output_len)` as the sequence on a newly constructed client. -/
theorem clear_behaves_as_fresh (c : client) (l : List encode_call)
    (hc : c.output.length = c.output_cap) (hl : ∀ e ∈ l, e.ok) :
    client_raw_bytes (encode_calls (client_clear c) l) =
      client_raw_bytes (encode_calls client_new l) ∧
    (encode_calls (client_clear c) l).output_len = (encode_calls client_new l).output_len := by
  have h1 : output_ok (client_clear c) := ⟨hc, Nat.zero_le _⟩
  have h2 : client_raw_bytes (client_clear c) = client_raw_bytes client_new := by
    simp [client_raw_bytes, client_clear, client_new]
  obtain ⟨r1, r2, r3⟩ := encode_calls_raw l (client_clear c) client_new h1 client_new_output_ok
    hl h2
  refine ⟨r1, ?_⟩
  rw [← client_raw_bytes_length _ r2, ← client_raw_bytes_length _ r3, r1]

/-- A client with 12 pending bytes, cleared, then an integer reply, a bulk reply
and an error reply. -/
theorem clear_behaves_as_fresh_witness :
    client_raw_bytes (encode_calls
      (client_clear (client_write_bulk (client_write_multibulk client_new 7) [97, 98] 2))
      [.write_int (-5), .write_bulk [120, 121, 122] 2, .write_error "no"]) =
    client_raw_bytes (encode_calls client_new
      [.write_int (-5), .write_bulk [120, 121, 122] 2, .write_error "no"]) :=
  (clear_behaves_as_fresh
    (client_write_bulk (client_write_multibulk client_new 7) [97, 98] 2)
    [.write_int (-5), .write_bulk [120, 121, 122] 2, .write_error "no"]
    (by decide) (by decide)).1

/-- Claim C17, at the failing input.  The transport holds `ab\nc` and then
`d\n`.  The first `client_read_command` on a fresh client returns the command
`ab` and leaves cursor 3, length 1, capacity 4: the byte `c` ends the buffer.
In the second call the parse of `c` is incomplete, `buf_cap - buf_len` is 3,
so lines 363-373 do not grow the buffer although its free tail
`buf_cap - buf_idx - buf_len` is 0; the read is issued with room for 0 bytes,
returns 0, and the call returns "Protocol error: incomplete command" while
the transport still holds `d\n`. -/
theorem read_issued_without_room :
    (read_command client_new [.data [97, 98, 10, 99], .data [100, 10]]).1 = none ∧
    (read_command client_new [.data [97, 98, 10, 99], .data [100, 10]]).2.1.buf_idx = 3 ∧
    (read_command client_new [.data [97, 98, 10, 99], .data [100, 10]]).2.1.buf_len = 1 ∧
    (read_command client_new [.data [97, 98, 10, 99], .data [100, 10]]).2.1.buf_cap = 4 ∧
    (read_command client_new [.data [97, 98, 10, 99], .data [100, 10]]).2.2
      = [.data [100, 10]] ∧
    (client_parse_command
      (read_command client_new [.data [97, 98, 10, 99], .data [100, 10]]).2.1).1
      = some err_incomplete ∧
    input_room (input_grow (client_parse_command
      (read_command client_new [.data [97, 98, 10, 99], .data [100, 10]]).2.1).2) = 0 ∧
    (read_command (read_command client_new [.data [97, 98, 10, 99], .data [100, 10]]).2.1
      [.data [100, 10]]).1 = some "Protocol error: incomplete command" ∧
    (read_command (read_command client_new [.data [97, 98, 10, 99], .data [100, 10]]).2.1
      [.data [100, 10]]).2.2 = [.data [100, 10]] := by
  decide

/-- Claim C18.  Input buffer invariant: in every state reachable from a fresh
client through parse attempts, buffer growth and transport reads that return
at most the byte count asked for, `cursor + length ≤ capacity` holds and
`length = 0` implies `cursor = 0`. -/
theorem input_buffer_invariant (c : client) (h : input_reachable c) :
    c.buf_idx + c.buf_len ≤ c.buf_cap ∧ (c.buf_len = 0 → c.buf_idx = 0) := by
  induction h with
  | fresh => exact ⟨Nat.le_refl _, fun _ => rfl⟩
  | parse c _ ih => exact input_invariant_parse c ih
  | grow c _ ih =>
    obtain ⟨_, _, _, g4, g5, g6⟩ := input_grow_output c
    rw [g4, g5]
    exact ⟨by omega, ih.2⟩
  | read c d _ hd ih =>
    unfold input_room at hd
    show c.buf_idx + (c.buf_len + d.length) ≤ c.buf_cap ∧
      (c.buf_len + d.length = 0 → c.buf_idx = 0)
    exact ⟨by omega, fun h0 => ih.2 (by omega)⟩

/-- The invariant after three rounds of growth and read (`a`, `\n`, `b\n`) and a
parse attempt, which releases `a\n` and leaves the cursor at 2. -/
theorem input_buffer_invariant_witness :
    (client_parse_command (input_append (input_grow (input_append (input_grow
      (input_append (input_grow client_new) [97] 1)) [10] 1)) [98, 10] 2)).2.buf_idx = 2 ∧
    ((client_parse_command (input_append (input_grow (input_append (input_grow
      (input_append (input_grow client_new) [97] 1)) [10] 1)) [98, 10] 2)).2.buf_idx +
      (client_parse_command (input_append (input_grow (input_append (input_grow
        (input_append (input_grow client_new) [97] 1)) [10] 1)) [98, 10] 2)).2.buf_len ≤
      (client_parse_command (input_append (input_grow (input_append (input_grow
        (input_append (input_grow client_new) [97] 1)) [10] 1)) [98, 10] 2)).2.buf_cap ∧
    ((client_parse_command (input_append (input_grow (input_append (input_grow
      (input_append (input_grow client_new) [97] 1)) [10] 1)) [98, 10] 2)).2.buf_len = 0 →
      (client_parse_command (input_append (input_grow (input_append (input_grow
        (input_append (input_grow client_new) [97] 1)) [10] 1)) [98, 10] 2)).2.buf_idx = 0)) :=
  ⟨by decide, input_buffer_invariant _
    (.parse _ (.read _ [98, 10] (.grow _ (.read _ [10] (.grow _ (.read _ [97]
      (.grow _ .fresh) (by decide))) (by decide))) (by decide)))⟩

/-- Claim C19.  Argument spans stay inside the parsed bytes: when
`client_parse_command` (which runs either grammar) returns success, every
(start, length) entry of the argument vector has `old_cursor ≤ start` and
`start + length ≤ old_cursor + consumed`, where `consumed` is the number of
bytes the call released (old length minus new length), and the released bytes
were buffered before the call (`consumed ≤ old length`). -/
theorem argument_spans_inside_parsed_bytes (c : client)
    (h : (client_parse_command c).1 = none) :
    (∀ a ∈ (client_parse_command c).2.args,
      c.buf_idx ≤ a.1 ∧
      a.1 + a.2 ≤ c.buf_idx + (c.buf_len - (client_parse_command c).2.buf_len)) ∧
    0 < c.buf_len - (client_parse_command c).2.buf_len ∧
    c.buf_len - (client_parse_command c).2.buf_len ≤ c.buf_len := by
  obtain ⟨i2, c2, e1, ⟨_, d2, d3, _⟩, e3, e4, e5⟩ := (client_parse_command_post c).2 h
  rw [e1, release_args, release_buf_len, d2, d3]
  refine ⟨fun a ha => ?_, by omega, by omega⟩
  have := e5 a ha
  omega

/-- The spans of `GET "a b"\n` parsed from a buffer with one consumed byte. -/
theorem argument_spans_inside_parsed_bytes_witness :
    (client_parse_command
      (client_with_input [7] [71, 69, 84, 32, 34, 97, 32, 98, 34, 10] [0])).2.args =
      [(1, 3), (6, 3)] ∧
    ∀ a ∈ (client_parse_command
        (client_with_input [7] [71, 69, 84, 32, 34, 97, 32, 98, 34, 10] [0])).2.args,
      (client_with_input [7] [71, 69, 84, 32, 34, 97, 32, 98, 34, 10] [0]).buf_idx ≤ a.1 ∧
      a.1 + a.2 ≤ (client_with_input [7] [71, 69, 84, 32, 34, 97, 32, 98, 34, 10] [0]).buf_idx +
        ((client_with_input [7] [71, 69, 84, 32, 34, 97, 32, 98, 34, 10] [0]).buf_len -
          (client_parse_command
            (client_with_input [7] [71, 69, 84, 32, 34, 97, 32, 98, 34, 10] [0])).2.buf_len) :=
  ⟨by decide, (argument_spans_inside_parsed_bytes
    (client_with_input [7] [71, 69, 84, 32, 34, 97, 32, 98, 34, 10] [0]) (by decide)).1⟩

/-- Claim C20.  Parse is atomic on failure: when `client_parse_command` returns
"incomplete" or a protocol error, the bytes of the input buffer (the `\r` that
was overwritten by NUL for `atoi` included), the cursor and the length are the
same after the call as before it; so are the unconsumed bytes. -/
theorem parse_failure_consumes_nothing (c : client)
    (h : (client_parse_command c).1 ≠ none) :
    (client_parse_command c).2.buf = c.buf ∧
    (client_parse_command c).2.buf_idx = c.buf_idx ∧
    (client_parse_command c).2.buf_len = c.buf_len ∧
    unconsumed (client_parse_command c).2 = unconsumed c := by
  obtain ⟨b1, b2, b3, _⟩ := (client_parse_command_post c).1 h
  refine ⟨b1, b3, b2, ?_⟩
  unfold unconsumed
  rw [b1, b2, b3]

/-- The failure of Claim C20 at `*1\r\n$-1\r\n`, where the NUL is written twice. -/
theorem parse_failure_consumes_nothing_witness :
    (client_parse_command
      (client_with_input [7] [42, 49, 13, 10, 36, 45, 49, 13, 10] [0])).1 = some err_bulk_length ∧
    (client_parse_command
      (client_with_input [7] [42, 49, 13, 10, 36, 45, 49, 13, 10] [0])).2.buf =
      (client_with_input [7] [42, 49, 13, 10, 36, 45, 49, 13, 10] [0]).buf ∧
    unconsumed (client_parse_command
      (client_with_input [7] [42, 49, 13, 10, 36, 45, 49, 13, 10] [0])).2 =
      unconsumed (client_with_input [7] [42, 49, 13, 10, 36, 45, 49, 13, 10] [0]) :=
  have h := parse_failure_consumes_nothing
    (client_with_input [7] [42, 49, 13, 10, 36, 45, 49, 13, 10] [0]) (by decide)
  ⟨by decide, h.1, h.2.2.2⟩

end RocksdbServer
